import Mathlib

/-!
Verification development for the ECG beat/segment sampling engine of
`Notebooks/ECG_demo/scripts/recordings.py`.

The Python module is shallowly embedded below.  Conventions used throughout:

* A row of the beat-annotation table (a pandas `DataFrame`) is a `Beat`;
  the table itself is a `List Beat` kept in row order, the `DataFrame`
  index of a row is the field `id : ℤ`.
* All randomness (`np.random.*`, `random.choices`) is modelled by an
  oracle `g : ℕ → ℕ` together with an explicit position counter: the
  n-th draw reads `g n`, and a primitive needing a value in `[0, k)`
  takes `g n % k`.  Every theorem below is quantified over `g`, so it
  holds for every possible sequence of random draws.  Distributional
  weights only bias which index is drawn; since every weight occurring
  in the weighted draws of this module is positive, the support is the
  whole population and `g n % k` ranges over exactly the indices the
  source can produce.
* Python floats are modelled by `ℚ` (the values manipulated here are
  small rationals, where float64 arithmetic is exact for the claim
  inputs); `np.round` is round-half-to-even, `int(...)` truncates
  toward zero, `np.floor` of an integer quotient is `Int` division
  (`/` on `ℤ`, which floors for positive divisors).
* A Python function that can raise an uncaught exception returns
  `Option`/`Except`; `none`/`.error` is the raised exception.
* Loops whose termination is not structural carry a `fuel` argument and
  return `none` when the fuel runs out; with enough fuel the recursion
  performs exactly the iterations of the Python loop.
-/

/-- One row of the beat-annotation table: `id` is the DataFrame index of
the row, the other fields are the table's columns. -/
structure Beat where
  id : ℤ
  idx_start : ℕ
  idx_end : ℕ
  target : ℕ
  recording : ℕ
  bad_signal : Bool
  is_anomal : Bool
  is_used : Bool
deriving DecidableEq, Repr

/-- A column name of the annotation table, for the `include`/`exclude`
filters of `provide_data`. -/
inductive Col where
  | id | idx_start | idx_end | target | recording | bad_signal | is_anomal | is_used
deriving DecidableEq, Repr

/-- The value a row holds in a column (Booleans as 0/1). -/
def colVal (b : Beat) : Col → ℤ
  | .id => b.id
  | .idx_start => b.idx_start
  | .idx_end => b.idx_end
  | .target => b.target
  | .recording => b.recording
  | .bad_signal => if b.bad_signal then 1 else 0
  | .is_anomal => if b.is_anomal then 1 else 0
  | .is_used => if b.is_used then 1 else 0

/-- The `target_probs` argument: `None`, the string `"uniform"`, or a
dict mapping a target class to a weight. -/
inductive TargetProbs where
  | nullProbs : TargetProbs
  | uniform : TargetProbs
  | probDict : List (ℕ × ℚ) → TargetProbs
deriving DecidableEq, Repr

/-- The `match_segments` argument, read as a set of category names:
whether it contains "target", "recording", and whether it contains any
further (unsupported) name. -/
structure MatchSegments where
  target : Bool
  recording : Bool
  other : Bool
deriving DecidableEq, Repr

/-- An exception escaping `provide_data`: the two explicit `ValueError`s
of the length validation, the `ValueError` for an unsupported
`match_segments`, a runtime error raised inside a picker, or fuel
exhaustion of the embedding. -/
inductive PErr where
  | configLen | configMatch | runtime | outOfFuel
deriving DecidableEq, Repr

/-- range(a, b) of Python. -/
def pyRange (a b : ℕ) : List ℕ :=
  if b ≤ a then [] else List.range' a (b - a)

/-- `np.round` on a rational: round half to even (banker's rounding),
as IEEE-754/`np.round` does. -/
def roundHalfEven (q : ℚ) : ℤ :=
  let f : ℤ := ⌊q⌋
  let r : ℚ := q - f
  if r < 1/2 then f
  else if 1/2 < r then f + 1
  else if Even f then f else f + 1

/-- Python `int(...)` on a (here: rational-valued) float: truncation
toward zero. -/
def pyTrunc (q : ℚ) : ℤ :=
  if q < 0 then -⌊-q⌋ else ⌊q⌋

/-- Insert a natural into an ascending list, dropping duplicates; folding
this over a list gives the sorted distinct values, i.e. `np.unique`. -/
def insertAsc (x : ℕ) : List ℕ → List ℕ
  | [] => [x]
  | y :: ys => if x < y then x :: y :: ys else if x = y then y :: ys else y :: insertAsc x ys

/-- `np.unique(l)`: the distinct values of `l` in ascending order. -/
def sortedUnique (l : List ℕ) : List ℕ :=
  l.foldr insertAsc []

/-- `np.unique(l, return_counts=True)`: the distinct values of `l` in
ascending order, each with its number of occurrences in `l`. -/
def uniqueCounts (l : List ℕ) : List (ℕ × ℕ) :=
  (sortedUnique l).map fun t => (t, l.count t)

/-- `split_at_discontinuity(seq, step)` (recordings.py, lines 943-957):
split a sequence whenever the difference between two subsequent items is
not 1.  The `step` parameter is accepted but never used by the body: the
comparison `np.diff(seq) != 1` hardcodes 1.  `np.split(seq, [])` of an
empty sequence yields one empty part, hence the `[[]]` case. -/
def splitAtDiscontinuityGo (prev : ℤ) : List ℤ → List ℤ → List (List ℤ)
  | [], acc => [acc.reverse]
  | y :: rest, acc =>
      if y - prev = 1 then splitAtDiscontinuityGo y rest (y :: acc)
      else acc.reverse :: splitAtDiscontinuityGo y rest [y]

def splitAtDiscontinuity (seq : List ℤ) (step : ℤ) : List (List ℤ) :=
  match step, seq with
  | _, [] => [[]]
  | _, x :: rest => splitAtDiscontinuityGo x rest [x]

/-- `np.split(arr, np.cumsum(sizes))` with one split point per element of
`sizes`: successive pieces of the given sizes (clipped at the end of the
list, as numpy clips out-of-range split points), then the remainder. -/
def splitAtSizes {α : Type} : List α → List ℕ → List (List α)
  | l, [] => [l]
  | l, s :: rest => l.take s :: splitAtSizes (l.drop s) rest

/-- The final two statements shared by every segment picker
(e.g. recordings.py lines 736-742): flatten the collected segments to a
beat-id list, and enumerate a parallel segment-id list that repeats the
position of each segment once per beat of that segment. -/
def segIdsFrom : ℕ → List (List ℤ) → List ℕ
  | _, [] => []
  | k, s :: rest => List.replicate s.length k ++ segIdsFrom (k + 1) rest

def flattenSegments (segs : List (List ℤ)) : List ℤ × List ℕ :=
  (segs.flatten, segIdsFrom 0 segs)

/-- `np.random.shuffle` driven by the oracle (Fisher-Yates: draw a
position, move that element to the front, continue on the rest).  The
first argument is fuel, always instantiated with the list length, which
the recursion consumes exactly; any permutation is reachable for a
suitable oracle and every oracle yields a permutation. -/
def shuffleAux {α : Type} (g : ℕ → ℕ) : ℕ → List α → ℕ → List α
  | 0, _, _ => []
  | _ + 1, [], _ => []
  | n + 1, x :: xs, i =>
      let k := g i % (x :: xs).length
      (x :: xs).get ⟨k, Nat.mod_lt _ (Nat.succ_pos xs.length)⟩ ::
        shuffleAux g n ((x :: xs).eraseIdx k) (i + 1)

def shuffleList {α : Type} (g : ℕ → ℕ) (i : ℕ) (l : List α) : List α × ℕ :=
  (shuffleAux g l.length l i, i + l.length)

/-- `np.random.choice(pop, size=k, replace=False)` with an integer size:
`none` is the `ValueError` numpy raises when `k` is negative or exceeds
the population (an empty population with `k = 0` succeeds with an empty
draw).  A successful draw is the length-`k` front of an oracle-driven
permutation: `k` distinct positions of `pop`. -/
def choiceNoReplace (g : ℕ → ℕ) (i : ℕ) (pop : List ℤ) (k : ℤ) :
    Option (List ℤ × ℕ) :=
  if k < 0 then none
  else if (pop.length : ℤ) < k then none
  else some ((shuffleAux g pop.length pop i).take k.toNat, i + pop.length)

/-- `np.random.choice(pop, size=k)` (with replacement, uniform):
`ValueError` when `k` is negative or the population is empty while
`k > 0`. -/
def choiceReplace (g : ℕ → ℕ) (i : ℕ) (pop : List ℤ) (k : ℤ) :
    Option (List ℤ × ℕ) :=
  if k < 0 then none
  else if pop = [] ∧ 0 < k then none
  else some (((List.range k.toNat).map fun j => pop.getD (g (i + j) % pop.length) 0),
    i + k.toNat)

/-- `beat_counts[t] += v` on a Python dict kept as an ordered association
list: add `v` to the first entry with key `t` (keys are unique in a
dict, so at most one entry matches). -/
def addToKey (t : ℕ) (v : ℤ) : List (ℕ × ℤ) → List (ℕ × ℤ)
  | [] => []
  | (t', c) :: rest =>
      if t' = t then (t', c + v) :: rest else (t', c) :: addToKey t v rest

/-- The `except KeyError` branch of `_determine_beat_counts`:
`for tgt in random.choices(list(beat_counts.keys()), k=diff_beats):
beat_counts[tgt] += 1`.  `random.choices` with `k ≤ 0` yields no element,
with a positive `k` and an empty population it raises `IndexError`
(`none`); otherwise each draw picks some key, modelled by the oracle. -/
def randomChoicesAdd (g : ℕ → ℕ) (i : ℕ) (k : ℤ) :
    List (ℕ × ℤ) → Option (List (ℕ × ℤ) × ℕ)
  | counts =>
    if k ≤ 0 then some (counts, i)
    else if counts = [] then none
    else some (randomChoicesAddGo g i k.toNat counts, i + k.toNat)
where
  randomChoicesAddGo (g : ℕ → ℕ) (i : ℕ) : ℕ → List (ℕ × ℤ) → List (ℕ × ℤ)
    | 0, counts => counts
    | n + 1, counts =>
        let keys := counts.map Prod.fst
        let t := keys.getD (g i % keys.length) 0
        randomChoicesAddGo g (i + 1) n (addToKey t 1 counts)

/-- The per-mode base counts of `_determine_beat_counts` (lines 906-922):
`None` gives `floor(num_beats * counts_tgt / sum(counts_tgt))` per
present class (on ℤ with a positive divisor, `/` is exactly `np.floor`
of the float quotient; an empty table gives an empty dict, as the zip of
empty arrays does); `"uniform"` gives `num_beats // len(all_targets)`
per present class (`ZeroDivisionError` on an empty table); a dict is
normalized and each count is `int(np.round(p * num_beats))`
(`ZeroDivisionError` when the weights total 0). -/
def dbcBase (numBeats : ℤ) (tbl : List Beat) (tp : TargetProbs) :
    Option (List (ℕ × ℤ)) :=
  let allTargets := uniqueCounts (tbl.map fun b => b.target)
  match tp with
  | .nullProbs =>
      let s : ℤ := (allTargets.map fun p => (p.2 : ℤ)).sum
      some (allTargets.map fun p => (p.1, numBeats * (p.2 : ℤ) / s))
  | .uniform =>
      if allTargets.length = 0 then none
      else some (allTargets.map fun p => (p.1, numBeats / (allTargets.length : ℤ)))
  | .probDict l =>
      let norm : ℚ := (l.map Prod.snd).sum
      if norm = 0 then none
      else some (l.map fun p => (p.1, roundHalfEven (p.2 / norm * numBeats)))

/-- The residual repair of `_determine_beat_counts` (lines 924-932): add
the difference to class 0 when present, else hand out single beats to
randomly drawn classes. -/
def dbcRepair (g : ℕ → ℕ) (i : ℕ) (k : ℤ) (base : List (ℕ × ℤ)) :
    Option (List (ℕ × ℤ) × ℕ) :=
  if 0 ∈ base.map Prod.fst then some (addToKey 0 k base, i)
  else randomChoicesAdd g i k base

/-- `_determine_beat_counts` (recordings.py, lines 881-940).  Returns the
dict of per-target counts as an ordered association list, plus the next
oracle position; `none` models an uncaught exception.  Counts are `ℤ`:
the residual repair can drive a count negative. -/
def determineBeatCounts (g : ℕ → ℕ) (i : ℕ) (numBeats : ℤ) (tbl : List Beat)
    (tp : TargetProbs) (includeZeroProb : Bool) : Option (List (ℕ × ℤ) × ℕ) :=
  match dbcBase numBeats tbl tp with
  | none => none
  | some base =>
      match dbcRepair g i (numBeats - (base.map Prod.snd).sum) base with
      | none => none
      | some repaired =>
          let withZeros :=
            if includeZeroProb then
              repaired.1 ++ (((uniqueCounts (tbl.map fun b => b.target)).map
                Prod.fst).filter
                (fun t => ¬ t ∈ repaired.1.map Prod.fst)).map (fun t => (t, (0 : ℤ)))
            else repaired.1
          some (withZeros, repaired.2)

/-- `_pick_target_beats` (recordings.py, lines 669-697): draw `numBeats`
beats of class `tgt` without replacement; if more are requested than
available, warn and return all available beats of the class.  `none` is
the re-raised `ValueError` (only reachable with a negative count). -/
def pickTargetBeats (g : ℕ → ℕ) (i : ℕ) (tgt : ℕ) (numBeats : ℤ)
    (tbl : List Beat) : Option (List ℤ × ℕ) :=
  let pop := (tbl.filter fun b => b.target = tgt).map fun b => b.id
  match choiceNoReplace g i pop numBeats with
  | some r => some r
  | none => if (pop.length : ℤ) < numBeats then some (pop, i + pop.length) else none

/-- Whether `_pick_target_beats` emits its shortfall warning. -/
def pickTargetBeatsWarns (tgt : ℕ) (numBeats : ℤ) (tbl : List Beat) : Bool :=
  (((tbl.filter fun b => b.target = tgt).length : ℤ) < numBeats)

/-- The per-class accumulation loop of `_pick_beats`:
`collected_beats += list(_pick_target_beats(tgt, counts, annotations))`. -/
def pickBeatsLoop (g : ℕ → ℕ) (tbl : List Beat) :
    ℕ → List (ℕ × ℤ) → Option (List ℤ × ℕ)
  | i, [] => some ([], i)
  | i, (tgt, cnt) :: rest => do
      let (chosen, i') ← pickTargetBeats g i tgt cnt tbl
      let (later, i'') ← pickBeatsLoop g tbl i' rest
      return (chosen ++ later, i'')

/-- `_pick_beats` (recordings.py, lines 333-371): with `target_probs =
None`, a plain `np.random.choice` over the whole index — **with
replacement** (numpy's default); otherwise per-class draws without
replacement, concatenated and shuffled. -/
def pickBeats (g : ℕ → ℕ) (i : ℕ) (numBeats : ℤ) (tbl : List Beat)
    (tp : TargetProbs) : Option (List ℤ × ℕ) :=
  match tp with
  | .nullProbs => choiceReplace g i (tbl.map fun b => b.id) numBeats
  | _ => do
      let (counts, i1) ← determineBeatCounts g i numBeats tbl tp false
      let (collected, i2) ← pickBeatsLoop g tbl i1 counts
      return shuffleList g i2 collected

/-- The prefix kept by `segments[summed_segs <= num_beats_total]`
(recordings.py, line 657).  The cumulative sums of a list of naturals
are non-decreasing, so the boolean mask `cumsum ≤ budget` selects
exactly the longest prefix whose sum stays within the budget; this
recursion computes that prefix directly. -/
def takeWithin (budget : ℤ) : List ℕ → List ℕ
  | [] => []
  | x :: xs => if (x : ℤ) ≤ budget then x :: takeWithin (budget - x) xs else []

/-- Lines 656-666 of `_determine_seg_lengths`, as a function of the
drawn lengths: the prefix fitting the budget is kept (`current` follows
`summed_segs[len(segments)-1]`, which through Python's `[-1]` is the
total of all draws when the kept prefix is empty), and a final segment
of `max(min, missing)` covers what is still missing from the budget. -/
def plannerTail (total : ℤ) (minL : ℕ) (drawn : List ℕ) : List ℕ :=
  let kept := takeWithin total drawn
  let current : ℤ := if kept.length = 0 then (drawn.sum : ℤ) else (kept.sum : ℤ)
  let missing := total - current
  if 0 < missing then kept ++ [max minL missing.toNat] else kept

/-- `_determine_seg_lengths` (recordings.py, lines 635-666).  If the
budget fits one maximal segment, a single segment of length
`min_len_segment` is returned (with a warning when the budget is even
below the minimum).  Otherwise `ceil(total/min)` lengths are drawn
uniformly from `[min, max]` (`np.random.randint(min, max+1)`) and
handed to `plannerTail`.  Callers always pass `min_len_segment ≥ 1`;
`min_len_segment = 0` would raise `ZeroDivisionError` in the source. -/
def determineSegLengths (g : ℕ → ℕ) (i : ℕ) (total : ℤ) (minL maxL : ℕ) :
    List ℕ × ℕ :=
  if total ≤ (maxL : ℤ) then ([minL], i)
  else
    let maxSize := (total.toNat + minL - 1) / minL
    let drawn := (List.range maxSize).map fun j => minL + g (i + j) % (maxL + 1 - minL)
    (plannerTail total minL drawn, i + maxSize)

/-- The `while num_beats > 0` loop of `_pick_cont_segments_inner`
(recordings.py, lines 836-877).  `avail` is `available_segs`, `acc` the
collected segments (in reverse build order).  The weighted sublist
choice (`p` proportional to length, every length positive) is an oracle
draw over all indices; `np.random.randint(lo, hi)` raises `ValueError`
iff `hi ≤ lo`, which is the caught branch that discards the sublist. -/
def pickContInner (g : ℕ → ℕ) (minL maxL : ℕ) :
    ℕ → ℕ → ℤ → List (List ℤ) → List (List ℤ) → Option (List (List ℤ) × ℕ)
  | 0, _, _, _, _ => none
  | fuel + 1, i, numBeats, avail, acc =>
    if numBeats ≤ 0 then some (acc.reverse, i)
    else if avail.length = 0 then some (acc.reverse, i)
    else
      let k := g i % avail.length
      let sublist := avail.getD k []
      let avail' := avail.eraseIdx k
      if sublist.length ≤ maxL then
        let lenSeg := min sublist.length numBeats.toNat
        pickContInner g minL maxL fuel (i + 1) (numBeats - lenSeg) avail'
          (sublist.take lenSeg :: acc)
      else
        let hi := min maxL (sublist.length - minL)
        if hi ≤ minL then
          pickContInner g minL maxL fuel (i + 2) numBeats avail' acc
        else
          let lenSeg := minL + g (i + 1) % (hi - minL)
          let choices := 0 :: (sublist.length - lenSeg) ::
            pyRange minL (sublist.length - lenSeg - minL)
          let idxStart := choices.getD (g (i + 2) % choices.length) 0
          let seg := (sublist.drop idxStart).take lenSeg
          let sl0 := sublist.take idxStart
          let sl1 := sublist.drop (idxStart + lenSeg)
          pickContInner g minL maxL fuel (i + 3) (numBeats - lenSeg)
            (avail' ++ (if maxL < sl0.length then [sl0] else [])
              ++ (if maxL < sl1.length then [sl1] else []))
            (seg :: acc)

/-- `_pick_cont_segments_inner` (recordings.py, lines 803-878): split the
table per recording, split each recording's index list at index
discontinuities, keep the runs of at least `min_len_segment` beats, then
carve segments with the loop above. -/
def pickContSegmentsInner (g : ℕ → ℕ) (i : ℕ) (numBeats : ℤ) (tbl : List Beat)
    (minL maxL : ℕ) (fuel : ℕ) : Option (List (List ℤ) × ℕ) :=
  let recs := sortedUnique (tbl.map fun b => b.recording)
  let availableSegs := recs.flatMap fun rec =>
    (splitAtDiscontinuity ((tbl.filter fun b => b.recording = rec).map fun b => b.id) 1).filter
      fun s => minL ≤ s.length
  pickContInner g minL maxL fuel i numBeats availableSegs []

/-- The collected (already shuffled) segments of `_pick_cont_segments`
(recordings.py, lines 699-742).  The `target_probs` argument is ignored
by the source apart from a warning. -/
def pickContCollected (g : ℕ → ℕ) (i : ℕ) (numBeats : ℤ) (tbl : List Beat)
    (tp : TargetProbs) (minL maxL : ℕ) (fuel : ℕ) : Option (List (List ℤ) × ℕ) :=
  match tp, pickContSegmentsInner g i numBeats tbl minL maxL fuel with
  | _, none => none
  | _, some (segs, i') => some (shuffleList g i' segs)

/-- `_pick_cont_segments`: flattened beat ids with parallel segment ids. -/
def pickContSegments (g : ℕ → ℕ) (i : ℕ) (numBeats : ℤ) (tbl : List Beat)
    (tp : TargetProbs) (minL maxL : ℕ) (fuel : ℕ) :
    Option ((List ℤ × List ℕ) × ℕ) :=
  (pickContCollected g i numBeats tbl tp minL maxL fuel).map
    fun r => (flattenSegments r.1, r.2)

/-- The per-target loop of `_pick_cont_segments_sameclass`
(recordings.py, lines 782-789). -/
def pickContSameclassLoop (g : ℕ → ℕ) (tbl : List Beat) (minL maxL fuel : ℕ) :
    ℕ → List (ℕ × ℤ) → Option (List (List ℤ) × ℕ)
  | i, [] => some ([], i)
  | i, (tgt, cnt) :: rest => do
      let avail := tbl.filter fun b => b.target = tgt
      let (segs, i') ← pickContSegmentsInner g i cnt avail minL maxL fuel
      let (later, i'') ← pickContSameclassLoop g tbl minL maxL fuel i' rest
      return (segs ++ later, i'')

/-- The collected (already shuffled) segments of
`_pick_cont_segments_sameclass` (recordings.py, lines 745-800). -/
def pickContSameclassCollected (g : ℕ → ℕ) (i : ℕ) (numBeats : ℤ)
    (tbl : List Beat) (tp : TargetProbs) (minL maxL fuel : ℕ) :
    Option (List (List ℤ) × ℕ) := do
  let (counts, i1) ← determineBeatCounts g i numBeats tbl tp false
  let (collected, i2) ← pickContSameclassLoop g tbl minL maxL fuel i1 counts
  return shuffleList g i2 collected

/-- `_pick_cont_segments_sameclass`: flattened output. -/
def pickContSameclassSegments (g : ℕ → ℕ) (i : ℕ) (numBeats : ℤ)
    (tbl : List Beat) (tp : TargetProbs) (minL maxL fuel : ℕ) :
    Option ((List ℤ × List ℕ) × ℕ) :=
  (pickContSameclassCollected g i numBeats tbl tp minL maxL fuel).map
    fun r => (flattenSegments r.1, r.2)

/-- `_relative_counts` (recordings.py, lines 616-632): draw `numTotal`
samples over the indices of `dist` with probability proportional to the
weights, and return the per-index tallies.  `none` is the `ValueError`
numpy raises for a negative size, a negative weight, or probabilities
that do not normalize (total weight 0, which also covers the empty
distribution). -/
def relativeCounts (g : ℕ → ℕ) (i : ℕ) (numTotal : ℤ) (dist : List ℚ) :
    Option (List ℕ × ℕ) :=
  if numTotal < 0 then none
  else if dist.any fun q => q < 0 then none
  else
    let supp := (List.range dist.length).filter fun j => 0 < dist.getD j 0
    if supp = [] then none
    else
      let samples := (List.range numTotal.toNat).map fun j =>
        supp.getD (g (i + j) % supp.length) 0
      some ((List.range dist.length).map fun j => samples.count j, i + numTotal.toNat)

/-- `counts[is_nonzero] = counts_nonzero + min_count` (recordings.py,
line 612): scatter the drawn non-zero counts back into the full-size
array along the mask. -/
def scatterCounts (minCount : ℕ) : List Bool → List ℕ → List ℕ
  | [], _ => []
  | false :: ms, vs => 0 :: scatterCounts minCount ms vs
  | true :: ms, [] => 0 :: scatterCounts minCount ms []
  | true :: ms, v :: vs => (v + minCount) :: scatterCounts minCount ms vs

/-- `_relative_counts_min` (recordings.py, lines 586-613): like
`_relative_counts` but every selected entry gets at least `minCount`,
with entries zeroed out when the budget cannot give `minCount` to all.
`none` models `ZeroDivisionError` (`minCount = 0`, or `numTotal = 0`
reaching `num_used / num_total`) and the `ValueError` of the
without-replacement draw of zero positions for a negative budget. -/
def relativeCountsMin (g : ℕ → ℕ) (i : ℕ) (numTotal : ℤ) (dist : List ℕ)
    (minCount : ℕ) : Option (List ℕ × ℕ) := do
  if minCount = 0 then none
  else
    let fullSize := dist.length
    let numNonzero : ℤ := min (numTotal / (minCount : ℤ)) (fullSize : ℤ)
    if numNonzero < 0 then none
    else
      let (zeroIdxs, i1) :=
        if numNonzero < (fullSize : ℤ) then
          ((shuffleAux g fullSize ((List.range fullSize).map fun j => (j : ℤ)) i).take
            (fullSize - numNonzero.toNat), i + fullSize)
        else ([], i)
      let isNonzero : List Bool := (List.range fullSize).map fun j => ¬ (j : ℤ) ∈ zeroIdxs
      let distroNonzero : List ℚ :=
        ((dist.zip isNonzero).filter fun p => p.2).map fun p => (p.1 : ℚ)
      let numUsed : ℤ := numNonzero * minCount
      if numTotal = 0 then none
      else
        -- np.mean of the empty slice is nan, but then the subtraction maps
        -- over an empty array and the nan reaches no value; 0 is inert here.
        let meanD : ℚ :=
          if distroNonzero.length = 0 then 0
          else distroNonzero.sum / (distroNonzero.length : ℚ)
        let distroRemaining := distroNonzero.map fun q =>
          max (q - meanD * (numUsed : ℚ) / (numTotal : ℚ)) 0
        let (countsNonzero, i2) ← relativeCounts g i1 (numTotal - numUsed) distroRemaining
        return (scatterCounts minCount isNonzero countsNonzero, i2)

/-- The `{"target"}` branch of `_pick_category_segments` (recordings.py,
lines 521-530): per class, draw the class's beats, plan segment lengths,
and slice the drawn beats at the cumulative lengths. -/
def pickCategoryTargetLoop (g : ℕ → ℕ) (tbl : List Beat) (minL maxL : ℕ) :
    ℕ → List (ℕ × ℤ) → Option (List (List ℤ) × ℕ)
  | i, [] => some ([], i)
  | i, (tgt, cnt) :: rest => do
      let (beats, i1) ← pickTargetBeats g i tgt cnt tbl
      let (segLens, i2) := determineSegLengths g i1 cnt minL maxL
      let segs := splitAtSizes beats segLens.dropLast
      let (later, i3) ← pickCategoryTargetLoop g tbl minL maxL i2 rest
      return (segs ++ later, i3)

/-- The inner per-recording loop of the `{"target", "recording"}` branch
(recordings.py, lines 553-567). -/
def pickCategoryRecLoop (g : ℕ → ℕ) (availBeats : List Beat) (minL maxL : ℕ) :
    ℕ → List (ℕ × ℕ) → Option (List (List ℤ) × ℕ)
  | i, [] => some ([], i)
  | i, (rec, nBeats) :: rest =>
      if 0 < nBeats then do
        let (segSizes, i1) := determineSegLengths g i (nBeats : ℤ) minL maxL
        let pop := (availBeats.filter fun b => b.recording = rec).map fun b => b.id
        let (beatIdcs, i2) ← choiceNoReplace g i1 pop (segSizes.sum : ℤ)
        let segs := splitAtSizes beatIdcs segSizes.dropLast
        let (later, i3) ← pickCategoryRecLoop g availBeats minL maxL i2 rest
        return (segs ++ later, i3)
      else pickCategoryRecLoop g availBeats minL maxL i rest

/-- The `{"target", "recording"}` branch of `_pick_category_segments`
(recordings.py, lines 531-567): per class, split the class count over the
recordings holding it (recordings with more than `min_len_segment` beats
of the class), then draw without replacement inside each recording. -/
def pickCategoryTgtRecLoop (g : ℕ → ℕ) (tbl : List Beat) (minL maxL : ℕ) :
    ℕ → List (ℕ × ℤ) → Option (List (List ℤ) × ℕ)
  | i, [] => some ([], i)
  | i, (tgt, numBeatsTgt) :: rest => do
      let availableBeats := tbl.filter fun b => b.target = tgt
      let kept := (uniqueCounts (availableBeats.map fun b => b.recording)).filter
        fun p => minL < p.2
      let (beatsPerRec, i1) ← relativeCountsMin g i numBeatsTgt (kept.map Prod.snd) minL
      let (segs, i2) ← pickCategoryRecLoop g availableBeats minL maxL i1
        ((kept.map Prod.fst).zip beatsPerRec)
      let (later, i3) ← pickCategoryTgtRecLoop g tbl minL maxL i2 rest
      return (segs ++ later, i3)

/-- The collected (already shuffled) segments of `_pick_category_segments`
(recordings.py, lines 483-583).  The unsupported `match_segments` raise
is `.error .configMatch`; other uncaught exceptions are `.runtime`. -/
def pickCategoryCollected (g : ℕ → ℕ) (i : ℕ) (numBeats : ℤ) (tbl : List Beat)
    (tp : TargetProbs) (ms : MatchSegments) (minL maxL : ℕ) :
    Except PErr (List (List ℤ) × ℕ) := do
  let (counts, i1) ←
    match determineBeatCounts g i numBeats tbl tp false with
    | none => Except.error PErr.runtime
    | some r => Except.ok r
  let (collected, i2) ←
    if ms.target ∧ ¬ ms.recording ∧ ¬ ms.other then
      match pickCategoryTargetLoop g tbl minL maxL i1 counts with
      | none => Except.error PErr.runtime
      | some r => Except.ok r
    else if ms.target ∧ ms.recording ∧ ¬ ms.other then
      match pickCategoryTgtRecLoop g tbl minL maxL i1 counts with
      | none => Except.error PErr.runtime
      | some r => Except.ok r
    else Except.error PErr.configMatch
  return shuffleList g i2 collected

/-- `_pick_category_segments`: flattened output. -/
def pickCategorySegments (g : ℕ → ℕ) (i : ℕ) (numBeats : ℤ) (tbl : List Beat)
    (tp : TargetProbs) (ms : MatchSegments) (minL maxL : ℕ) :
    Except PErr ((List ℤ × List ℕ) × ℕ) :=
  (pickCategoryCollected g i numBeats tbl tp ms minL maxL).map
    fun r => (flattenSegments r.1, r.2)

/-- `d[t]` on the missing-count dict: `none` is a `KeyError`. -/
def lookupKey (t : ℕ) (l : List (ℕ × ℤ)) : Option ℤ :=
  (l.find? fun p => p.1 = t).map Prod.snd

/-- `any(target_nums_missing[tgt] > 0 for tgt in tgts)` (recordings.py,
line 461): Python evaluates the generator lazily, so a `KeyError` for a
target absent from the dict (`none`) is only raised when no earlier
target already has a positive missing count. -/
def anyMissing (missing : List (ℕ × ℤ)) : List ℕ → Option Bool
  | [] => some false
  | t :: rest =>
      match lookupKey t missing with
      | none => none
      | some v => if 0 < v then some true else anyMissing missing rest

/-- `for tgt, cnt in zip(tgts, cnts): target_nums_missing[tgt] -= cnt`
(recordings.py, lines 468-469): `none` is the `KeyError` for a target
that is not a key of the dict. -/
def decrementCounts (missing : List (ℕ × ℤ)) : List (ℕ × ℕ) → Option (List (ℕ × ℤ))
  | [] => some missing
  | (t, c) :: rest =>
      match lookupKey t missing with
      | none => none
      | some _ => decrementCounts (addToKey t (-(c : ℤ)) missing) rest

/-- The recording-pruning pass of `_pick_new_style_segments`
(recordings.py, lines 421-435): per recording, cut its rows into 8
chunks of `max(ceil(size/8), min_len_segment)` rows and drop every chunk
containing none of the still-missing targets. -/
def pruneRecLoop (remainingTgts : List ℕ) (minL : ℕ) :
    List ℕ → List Beat → List Beat
  | [], remaining => remaining
  | rec :: recs, remaining =>
      let annotRec := remaining.filter fun b => b.recording = rec
      let splitSize := max ((annotRec.length + 8 - 1) / 8) minL
      let parts := splitAtSizes annotRec (List.replicate 7 splitSize)
      let remaining' := parts.foldl
        (fun rem part =>
          if part.all fun b => ¬ b.target ∈ remainingTgts then
            -- df.drop(part.index); the dropped labels are rows of `rem`
            rem.filter fun b => ¬ b.id ∈ part.map Beat.id
          else rem)
        remaining
      pruneRecLoop remainingTgts minL recs remaining'

/-- The per-segment acceptance loop of `_pick_new_style_segments`
(recordings.py, lines 448-469), iterating over `np.unique(new_segs)`.
An accepted segment is appended, its beats dropped from the remaining
pool, and the missing counts decremented. -/
def acceptSegsLoop (tbl : List Beat) (minAnomal : ℤ)
    (newBeats : List ℤ) (newSegs : List ℕ) :
    List ℕ → List (ℕ × ℤ) → List Beat → List (List ℤ) →
    Option (List (ℕ × ℤ) × List Beat × List (List ℤ))
  | [], missing, remaining, collected => some (missing, remaining, collected)
  | iSeg :: rest, missing, remaining, collected =>
      let beatsSeg := ((newBeats.zip newSegs).filter fun p => p.2 = iSeg).map Prod.fst
      match beatsSeg.mapM (fun x => tbl.find? fun b => b.id = x) with
      | none => none
      | some annotSeg =>
          let annotSegAnom := annotSeg.filter fun b => ¬ b.target = 0
          let tgtsCnts := uniqueCounts (annotSeg.map fun b => b.target)
          let cntsAnom := (uniqueCounts (annotSegAnom.map fun b => b.target)).map Prod.snd
          -- fully-normal segments, or some anomaly with at least
          -- `min_anomal_per_seg` beats (np.amax of the anomaly counts)
          if cntsAnom = [] ∨ minAnomal ≤ ((cntsAnom.foldr max 0 : ℕ) : ℤ) then
            match anyMissing missing (tgtsCnts.map Prod.fst) with
            | none => none
            | some stillMissing =>
                if stillMissing then
                  match decrementCounts missing tgtsCnts with
                  | none => none
                  | some missing' =>
                      acceptSegsLoop tbl minAnomal newBeats newSegs rest missing'
                        (remaining.filter fun b => ¬ b.id ∈ beatsSeg)
                        (collected ++ [beatsSeg])
                else acceptSegsLoop tbl minAnomal newBeats newSegs rest missing
                  remaining collected
          else acceptSegsLoop tbl minAnomal newBeats newSegs rest missing
            remaining collected

/-- The `while max(target_nums_missing.values()) > 0` loop of
`_pick_new_style_segments` (recordings.py, lines 417-469).  The callers
always reach it with a non-empty dict (an empty `target_probs` already
died on the zero normalizer), so the `max` of the values is positive iff
some value is. -/
def pickNewStyleLoop (g : ℕ → ℕ) (tbl : List Beat) (minAnomal : ℤ)
    (minL maxL innerFuel : ℕ) :
    ℕ → ℕ → List (ℕ × ℤ) → List Beat → List (List ℤ) →
    Option (List (List ℤ) × ℕ)
  | 0, _, _, _, _ => none
  | fuel + 1, i, missing, remaining, collected =>
      if missing.all fun p => p.2 ≤ 0 then some (collected, i)
      else
        let remainingTgts := (missing.filter fun p => 0 < p.2).map Prod.fst
        let recs := sortedUnique (remaining.map fun b => b.recording)
        let remaining1 := pruneRecLoop remainingTgts minL recs remaining
        let need : ℤ := (missing.map fun p => max p.2 0).sum
        match pickContSegments g i need remaining1 .nullProbs minL maxL innerFuel with
        | none => none
        | some ((newBeats, newSegs), i1) =>
            match acceptSegsLoop tbl minAnomal newBeats newSegs
              (sortedUnique newSegs) missing remaining1 collected with
            | none => none
            | some (missing', remaining2, collected') =>
                pickNewStyleLoop g tbl minAnomal minL maxL innerFuel fuel i1
                  missing' remaining2 collected'

/-- The collected (already shuffled) segments of
`_pick_new_style_segments` (recordings.py, lines 374-480).
`target_probs = None` raises the explicit `ValueError` of lines 402-406;
the string `"uniform"` dies on `target_probs.values()`; both are `none`.
The initial missing counts follow line 413-416:
`int(np.round(prob * num_beats) / normalize)`. -/
def pickNewStyleCollected (g : ℕ → ℕ) (i : ℕ) (numBeats : ℤ) (tbl : List Beat)
    (minAnomal : ℤ) (tp : TargetProbs) (minL maxL fuel : ℕ) :
    Option (List (List ℤ) × ℕ) :=
  match tp with
  | .probDict l =>
      let normalize := (l.map Prod.snd).sum
      if normalize = 0 then none
      else
        let missing0 := l.map fun p =>
          (p.1, pyTrunc ((roundHalfEven (p.2 * numBeats) : ℚ) / normalize))
        match pickNewStyleLoop g tbl minAnomal minL maxL fuel fuel i missing0 tbl [] with
        | none => none
        | some (collected, i1) => some (shuffleList g i1 collected)
  | _ => none

/-- `_pick_new_style_segments`: flattened output. -/
def pickNewStyleSegments (g : ℕ → ℕ) (i : ℕ) (numBeats : ℤ) (tbl : List Beat)
    (minAnomal : ℤ) (tp : TargetProbs) (minL maxL fuel : ℕ) :
    Option ((List ℤ × List ℕ) × ℕ) :=
  (pickNewStyleCollected g i numBeats tbl minAnomal tp minL maxL fuel).map
    fun r => (flattenSegments r.1, r.2)

/-- `ECGRecordings._filter_data` (recordings.py, lines 308-327): keep the
rows whose value lies in every `include` entry's list and in no
`exclude` entry's list (pandas `query` with `==`/`!=` against a list is
membership / non-membership; a scalar is a one-element list). -/
def filterData (tbl : List Beat) (includeF excludeF : List (Col × List ℤ)) :
    List Beat :=
  let afterInc := includeF.foldl
    (fun acc p => acc.filter fun b => colVal b p.1 ∈ p.2) tbl
  excludeF.foldl (fun acc p => acc.filter fun b => ¬ colVal b p.1 ∈ p.2) afterInc

/-- `annotations.loc[beat_indices]`: one row per requested label, in
request order, duplicates repeated; `none` is the `KeyError` for a label
the (filtered) table does not hold. -/
def locList (tbl : List Beat) (ids : List ℤ) : Option (List Beat) :=
  ids.mapM fun x => tbl.find? fun b => b.id = x

/-- `self.annotations.loc[selection.index, "is_used"] = True`
(recordings.py, line 253): set `is_used` on exactly the rows whose label
is among the selected ids, leaving every other row and every other
column as it was. -/
def markUsed (ids : List ℤ) (tbl : List Beat) : List Beat :=
  tbl.map fun b => if b.id ∈ ids then { b with is_used := true } else b

/-- `ECGRecordings.provide_data` (recordings.py, lines 120-249) up to and
excluding the `is_used` marking: filter, validate the segment lengths,
dispatch to the picker the flags select, and look the chosen ids up in
the filtered table.  Returns the selected rows, the segment-id list (when
segmentation produced one) and the next oracle position.  The signal
slice and the `idx_start_new`/`idx_end_new` columns (cumulative beat
sizes over the selection) are derived output omitted here; they touch no
repository state. -/
def provideDataCore (g : ℕ → ℕ) (i fuel : ℕ) (st : List Beat)
    (numBeats : Option ℤ) (includeF excludeF : List (Col × List ℤ))
    (tp : TargetProbs) (contSegs : Bool) (minAnomal : Option ℤ)
    (ms : MatchSegments) (minL maxL : ℤ) :
    Except PErr ((List Beat × Option (List ℕ)) × ℕ) :=
  let annots := filterData st includeF excludeF
  match numBeats with
  | none => .ok ((annots, none), i)
  | some n =>
    if minL < 1 ∨ maxL < 1 then .error .configLen
    else if maxL < minL then .error .configLen
    else
      let mL := minL.toNat
      let xL := maxL.toNat
      if ((¬ contSegs) ∧ ms = ⟨false, false, false⟩) ∨ maxL = 1 then
        match pickBeats g i n annots tp with
        | none => .error .runtime
        | some (ids, i') =>
            match locList annots ids with
            | none => .error .runtime
            | some sel => .ok ((sel, none), i')
      else if contSegs then
        -- match_segments minus {"recording"}; a leftover unsupported
        -- category only warns
        if ms.target then
          match pickContSameclassSegments g i n annots tp mL xL fuel with
          | none => .error .runtime
          | some ((ids, segIds), i') =>
              match locList annots ids with
              | none => .error .runtime
              | some sel => .ok ((sel, some segIds), i')
        else
          match minAnomal with
          | some m =>
              match pickNewStyleSegments g i n annots m tp mL xL fuel with
              | none => .error .runtime
              | some ((ids, segIds), i') =>
                  match locList annots ids with
                  | none => .error .runtime
                  | some sel => .ok ((sel, some segIds), i')
          | none =>
              match pickContSegments g i n annots tp mL xL fuel with
              | none => .error .runtime
              | some ((ids, segIds), i') =>
                  match locList annots ids with
                  | none => .error .runtime
                  | some sel => .ok ((sel, some segIds), i')
      else
        match pickCategorySegments g i n annots tp ms mL xL with
        | .error e => .error e
        | .ok ((ids, segIds), i') =>
            match locList annots ids with
            | none => .error .runtime
            | some sel => .ok ((sel, some segIds), i')

/-- `ECGRecordings.provide_data` including its one effect: unless
`remain_unused`, the repository table's `is_used` flag is set for the
selected rows (recordings.py, lines 251-253).  The second component of a
successful result is the repository's annotation table after the call. -/
def provideData (g : ℕ → ℕ) (i fuel : ℕ) (st : List Beat)
    (numBeats : Option ℤ) (includeF excludeF : List (Col × List ℤ))
    (tp : TargetProbs) (contSegs : Bool) (minAnomal : Option ℤ)
    (ms : MatchSegments) (minL maxL : ℤ) (remainUnused : Bool) :
    Except PErr ((List Beat × Option (List ℕ)) × List Beat × ℕ) :=
  match provideDataCore g i fuel st numBeats includeF excludeF tp contSegs
    minAnomal ms minL maxL with
  | .error e => .error e
  | .ok ((sel, segIds), i') =>
      .ok ((sel, segIds),
        (if remainUnused then st else markUsed (sel.map fun b => b.id) st), i')

/-- `target[start : start + len] = v` on a Python/numpy 1-D array:
overwrite the positions of the (clipped) slice with the scalar. -/
def pySliceSet (l : List ℕ) (start len v : ℕ) : List ℕ :=
  l.mapIdx fun j x => if start ≤ j ∧ j < start + len then v else x

/-- `map_target[t]` / a dict of class remappings: `none` is a `KeyError`. -/
def lookupNat (t : ℕ) (l : List (ℕ × ℕ)) : Option ℕ :=
  (l.find? fun p => p.1 = t).map Prod.snd

/-- The `for idx_extd in anom_end_idcs:` loop of `generate_target`
(recordings.py, lines 1000-1001).  `anom_end_idcs` is a **boolean**
array, so the loop variable is `False` or `True`, used as the integer
0 or 1: each `False` element executes
`target[0 : extend] = target[-1]` (Python's index -1 is the last
element) and each `True` element executes
`target[1 : 1 + extend] = target[0]`. -/
def extendLoop (e : ℕ) : List Bool → List ℕ → List ℕ
  | [], t => t
  | b :: ms, t =>
      let idx := if b then 1 else 0
      let v := if b then t.headD 0 else t.getLastD 0
      extendLoop e ms (pySliceSet t idx e v)

/-- `generate_target` (recordings.py, lines 960-1004), without the
boolean-raster conversion (`boolean_raster=False`): the per-sample class
stream, each beat's (remapped) class repeated for its sample length,
then the `extend` pass above.  `none` models the `KeyError` of a class
missing from `map_target` and the `IndexError` of `target[-1]` on an
empty stream. -/
def generateTargetStream (annots : List Beat)
    (mapTarget : Option (List (ℕ × ℕ))) (extend : Option ℕ) :
    Option (List ℕ) := do
  let beatTargets ←
    match mapTarget with
    | some m => annots.mapM fun b => lookupNat b.target m
    | none => some (annots.map fun b => b.target)
  let beatSizes := annots.map fun b => b.idx_end - b.idx_start
  let base := (beatTargets.zip beatSizes).flatMap fun p => List.replicate p.2 p.1
  match extend with
  | none => some base
  | some e => do
      let tgtZero ←
        match mapTarget with
        | some m => lookupNat 0 m
        | none => some 0
      let mask := false :: ((base.drop 1).zip base).map fun p =>
        decide (p.1 = tgtZero) && ! decide (p.2 = tgtZero)
      if base = [] then none
      else some (extendLoop e mask base)

/-- The `extend` pass as the source's own docstring and the spec describe
it (recordings.py lines 972-974, spec §4.7): at every position `j` where
the stream steps from a non-zero class onto the zero class and no
non-zero run starts inside the following window of `e` samples,
overwrite those `e` samples with the class standing just before the
transition.  Kept beside `generateTargetStream` to exhibit the
divergence of the implemented loop from the documented one. -/
def specExtendTransitions (tgtZero : ℕ) (base : List ℕ) (e : ℕ) : List ℕ :=
  (List.range base.length).filter fun j =>
    0 < j ∧ base.getD j 0 = tgtZero ∧ ¬ base.getD (j - 1) 0 = tgtZero ∧
      ((List.range e).all fun k => base.length ≤ j + k ∨ base.getD (j + k) 0 = tgtZero)

def specExtendStream (e : ℕ) (tgtZero : ℕ) (base : List ℕ) : List ℕ :=
  (specExtendTransitions tgtZero base e).foldl
    (fun t j => pySliceSet t j e (base.getD (j - 1) 0)) base

/-- The data invariant under which index-contiguity implies sample-range
contiguity: rows with consecutive index labels in the same recording
abut (the next beat starts where the previous ends). -/
def TableAbuts (tbl : List Beat) : Prop :=
  ∀ b ∈ tbl, ∀ b' ∈ tbl, b'.id = b.id + 1 → b'.recording = b.recording →
    b'.idx_start = b.idx_end

instance : DecidablePred TableAbuts := fun tbl => by
  unfold TableAbuts; infer_instance

/-! ### Lemmas about `split_at_discontinuity` -/

theorem splitGo_flatten (l : List ℤ) : ∀ (prev : ℤ) (acc : List ℤ),
    (splitAtDiscontinuityGo prev l acc).flatten = acc.reverse ++ l := by
  induction l with
  | nil => intro prev acc; simp [splitAtDiscontinuityGo]
  | cons y rest ih =>
      intro prev acc
      by_cases h : y - prev = 1
      · simp [splitAtDiscontinuityGo, h, ih]
      · simp [splitAtDiscontinuityGo, h, ih]

theorem splitGo_runs (l : List ℤ) : ∀ (prev : ℤ) (acc : List ℤ),
    acc.reverse.Chain' (fun a b => b - a = 1) → acc.head? = some prev →
    ∀ run ∈ splitAtDiscontinuityGo prev l acc, run.Chain' fun a b => b - a = 1 := by
  induction l with
  | nil =>
      intro prev acc hacc _ run hrun
      simp [splitAtDiscontinuityGo] at hrun; subst hrun; exact hacc
  | cons y rest ih =>
      intro prev acc hacc hhead run hrun
      by_cases h : y - prev = 1
      · rw [splitAtDiscontinuityGo, if_pos h] at hrun
        refine ih y (y :: acc) ?_ rfl run hrun
        have : (y :: acc).reverse = acc.reverse ++ [y] := by simp
        rw [this, List.chain'_append]
        refine ⟨hacc, List.chain'_singleton y, ?_⟩
        intro x hx z hz
        rw [List.getLast?_reverse, hhead] at hx
        simp at hx hz
        omega
      · rw [splitAtDiscontinuityGo, if_neg h] at hrun
        rcases List.mem_cons.mp hrun with h1 | h1
        · subst h1; exact hacc
        · exact ih y [y] (by simp) rfl run h1

theorem splitGo_first_head (l : List ℤ) : ∀ (prev x : ℤ) (acc : List ℤ),
    acc.getLast? = some x →
    ∃ r rest', splitAtDiscontinuityGo prev l acc = r :: rest' ∧ r.head? = some x := by
  induction l with
  | nil =>
      intro prev x acc hx
      exact ⟨acc.reverse, [], rfl, by rw [List.head?_reverse]; exact hx⟩
  | cons y rest ih =>
      intro prev x acc hx
      have hne : acc ≠ [] := by rintro rfl; simp at hx
      by_cases h : y - prev = 1
      · rw [splitAtDiscontinuityGo, if_pos h]
        refine ih y x (y :: acc) ?_
        rw [List.getLast?_cons, hx]
        cases acc with
        | nil => exact absurd rfl hne
        | cons a as => simp [List.getLast?_eq_getLast]
      · rw [splitAtDiscontinuityGo, if_neg h]
        exact ⟨acc.reverse, _, rfl, by rw [List.head?_reverse]; exact hx⟩

theorem splitGo_bounds (l : List ℤ) : ∀ (prev : ℤ) (acc : List ℤ),
    acc.head? = some prev →
    (splitAtDiscontinuityGo prev l acc).Chain'
      fun r r' => ∀ a ∈ r.getLast?, ∀ b ∈ r'.head?, ¬ b - a = 1 := by
  induction l with
  | nil => intro prev acc _; simp [splitAtDiscontinuityGo]
  | cons y rest ih =>
      intro prev acc hhead
      by_cases h : y - prev = 1
      · rw [splitAtDiscontinuityGo, if_pos h]; exact ih y (y :: acc) rfl
      · rw [splitAtDiscontinuityGo, if_neg h]
        obtain ⟨r, rest', heq, hr⟩ := splitGo_first_head rest y y [y] rfl
        rw [heq]
        rw [List.chain'_cons]
        refine ⟨?_, heq ▸ ih y [y] rfl⟩
        intro a ha b hb
        rw [List.getLast?_reverse, hhead] at ha
        rw [hr] at hb
        simp at ha hb
        omega

theorem splitAtDiscontinuity_flatten (seq : List ℤ) (step : ℤ) :
    (splitAtDiscontinuity seq step).flatten = seq := by
  cases seq with
  | nil => simp [splitAtDiscontinuity]
  | cons x rest => rw [splitAtDiscontinuity, splitGo_flatten]; simp

theorem splitAtDiscontinuity_run_subset {seq : List ℤ} {step : ℤ} {run : List ℤ}
    (h : run ∈ splitAtDiscontinuity seq step) : ∀ x ∈ run, x ∈ seq := by
  intro x hx
  rw [← splitAtDiscontinuity_flatten seq step]
  exact List.mem_flatten.mpr ⟨run, h, hx⟩

theorem splitAtDiscontinuity_runs {seq : List ℤ} {step : ℤ} :
    ∀ run ∈ splitAtDiscontinuity seq step, run.Chain' fun a b => b - a = 1 := by
  cases seq with
  | nil => intro run h; simp [splitAtDiscontinuity] at h; simp [h]
  | cons x rest =>
      intro run h
      exact splitGo_runs rest x [x] (by simp) rfl run h

/-- C10: `split_at_discontinuity` ignores its `step` parameter (the body
hardcodes a difference of 1), concatenating the returned runs reproduces
the input, each run increases in steps of exactly 1, and consecutive
runs are separated by a non-unit step: the function splits exactly at
the positions where the difference of consecutive elements is not 1. -/
theorem splitAtDiscontinuity_spec (seq : List ℤ) (step step' : ℤ) :
    splitAtDiscontinuity seq step = splitAtDiscontinuity seq step' ∧
    (splitAtDiscontinuity seq step).flatten = seq ∧
    (∀ run ∈ splitAtDiscontinuity seq step, run.Chain' fun a b => b - a = 1) ∧
    (splitAtDiscontinuity seq step).Chain'
      (fun r r' => ∀ a ∈ r.getLast?, ∀ b ∈ r'.head?, ¬ b - a = 1) := by
  refine ⟨?_, splitAtDiscontinuity_flatten seq step,
    splitAtDiscontinuity_runs, ?_⟩
  · cases seq with
    | nil => rfl
    | cons x rest => rfl
  · cases seq with
    | nil => simp [splitAtDiscontinuity]
    | cons x rest => exact splitGo_bounds rest x [x] rfl

/-! ### Lemmas about the segment-length planner -/

theorem takeWithin_subset : ∀ (l : List ℕ) (b : ℤ), ∀ x ∈ takeWithin b l, x ∈ l := by
  intro l
  induction l with
  | nil => intro b x hx; simp [takeWithin] at hx
  | cons y ys ih =>
      intro b x hx
      rw [takeWithin] at hx
      by_cases h : (y : ℤ) ≤ b
      · rw [if_pos h] at hx
        rcases List.mem_cons.mp hx with h1 | h1
        · simp [h1]
        · exact List.mem_cons_of_mem _ (ih _ x h1)
      · rw [if_neg h] at hx; simp at hx

theorem takeWithin_sum_le : ∀ (l : List ℕ) (b : ℤ), 0 ≤ b →
    ((takeWithin b l).sum : ℤ) ≤ b := by
  intro l
  induction l with
  | nil => intro b hb; simpa [takeWithin]
  | cons y ys ih =>
      intro b hb
      rw [takeWithin]
      by_cases h : (y : ℤ) ≤ b
      · rw [if_pos h]
        have := ih (b - y) (by omega)
        rw [List.sum_cons]
        push_cast at this ⊢
        omega
      · rw [if_neg h]; simpa

theorem takeWithin_structure : ∀ (l : List ℕ) (b : ℤ),
    takeWithin b l = l ∨
    ∃ (pre : List ℕ) (e : ℕ) (suf : List ℕ),
      l = pre ++ e :: suf ∧ takeWithin b l = pre ∧
      b < (pre.sum : ℤ) + (e : ℤ) := by
  intro l
  induction l with
  | nil => intro b; left; rfl
  | cons y ys ih =>
      intro b
      rw [takeWithin]
      by_cases h : (y : ℤ) ≤ b
      · rw [if_pos h]
        rcases ih (b - y) with h1 | ⟨pre, e, suf, hsplit, htake, hsum⟩
        · left; rw [h1]
        · right
          refine ⟨y :: pre, e, suf, by rw [hsplit, List.cons_append],
            by rw [htake], ?_⟩
          rw [List.sum_cons]
          push_cast at hsum ⊢
          omega
      · rw [if_neg h]
        right
        exact ⟨[], y, ys, rfl, rfl, by simpa using h⟩

/-- `ceil(a / b) * b ≥ a`: the planner draws enough segments to cover
the budget. -/
theorem ceilDiv_mul_ge (a b : ℕ) (hb : 0 < b) : a ≤ (a + b - 1) / b * b := by
  have h1 : b * ((a + b - 1) / b) + (a + b - 1) % b = a + b - 1 :=
    Nat.div_add_mod (a + b - 1) b
  have h2 : (a + b - 1) % b < b := Nat.mod_lt _ hb
  rw [Nat.mul_comm]
  omega

theorem listSumLowerBound : ∀ (l : List ℕ) (m : ℕ), (∀ x ∈ l, m ≤ x) →
    l.length * m ≤ l.sum := by
  intro l m
  induction l with
  | nil => intro _; simp
  | cons y ys ih =>
      intro h
      have h1 := h y (by simp)
      have h2 := ih fun x hx => h x (List.mem_cons_of_mem _ hx)
      simp only [List.length_cons, List.sum_cons]
      calc (ys.length + 1) * m = ys.length * m + m := by ring
      _ ≤ ys.sum + y := by omega
      _ = y + ys.sum := by ring

theorem plannerTail_bounds (total : ℤ) (minL maxL : ℕ) (drawn : List ℕ)
    (hmin : 1 ≤ minL) (hmm : minL ≤ maxL) (hbr : (maxL : ℤ) < total)
    (helem : ∀ x ∈ drawn, minL ≤ x ∧ x ≤ maxL)
    (hsum : total ≤ (drawn.sum : ℤ))
    (hne : drawn ≠ []) :
    (∀ x ∈ plannerTail total minL drawn, minL ≤ x ∧ x ≤ maxL) ∧
    total ≤ ((plannerTail total minL drawn).sum : ℤ) ∧
    ((plannerTail total minL drawn).sum : ℤ) < total + maxL := by
  have hkne : takeWithin total drawn ≠ [] := by
    cases drawn with
    | nil => exact absurd rfl hne
    | cons d ds =>
        have hd : (d : ℤ) ≤ total := by
          have := (helem d (by simp)).2
          omega
        rw [takeWithin, if_pos hd]
        simp
  have hkle : ((takeWithin total drawn).sum : ℤ) ≤ total :=
    takeWithin_sum_le _ _ (by omega)
  have hksub : ∀ x ∈ takeWithin total drawn, minL ≤ x ∧ x ≤ maxL :=
    fun x hx => helem x (takeWithin_subset _ _ x hx)
  have hlen : ¬ ((takeWithin total drawn).length = 0) := by
    simpa [List.length_eq_zero] using hkne
  simp only [plannerTail, if_neg hlen]
  by_cases hmiss : 0 < total - ((takeWithin total drawn).sum : ℤ)
  · rw [if_pos hmiss]
    have hmissmax : total - ((takeWithin total drawn).sum : ℤ) < (maxL : ℤ) := by
      rcases takeWithin_structure drawn total with heq | ⟨pre, e, suf, hsplit, htake, hlt⟩
      · rw [heq] at hmiss; omega
      · have he : e ≤ maxL := by
          refine (helem e ?_).2
          rw [hsplit]
          exact List.mem_append_right _ (by simp)
        rw [htake] at hmiss ⊢
        omega
    set m : ℤ := total - ((takeWithin total drawn).sum : ℤ) with hm
    refine ⟨?_, ?_, ?_⟩
    · intro x hx
      rcases List.mem_append.mp hx with h1 | h1
      · exact hksub x h1
      · have : x = max minL m.toNat := by simpa using h1
        subst this
        constructor
        · exact Nat.le_max_left _ _
        · have : m.toNat < maxL := by omega
          omega
    · rw [List.sum_append]
      simp only [List.sum_cons, List.sum_nil]
      omega
    · rw [List.sum_append]
      simp only [List.sum_cons, List.sum_nil]
      omega
  · rw [if_neg hmiss]
    exact ⟨hksub, by omega, by omega⟩

/-- C3 (amended): for `num_beats_total ≥ 1` and `1 ≤ min_len_segment ≤
max_len_segment`, every planned length lies in `[min, max]` and the
total is below `num_beats_total + max_len_segment`; the planned total
reaches `num_beats_total` whenever `num_beats_total > max_len_segment`
(the drawing branch) or `num_beats_total ≤ min_len_segment`, while in
the remaining case (`min < total ≤ max`) the planner returns the single
undersized segment `[min_len_segment]`. -/
theorem determineSegLengths_bounds (g : ℕ → ℕ) (i : ℕ) (total : ℤ)
    (minL maxL : ℕ) (hmin : 1 ≤ minL) (hmm : minL ≤ maxL) (htot : 1 ≤ total) :
    (∀ x ∈ (determineSegLengths g i total minL maxL).1, minL ≤ x ∧ x ≤ maxL) ∧
    (((determineSegLengths g i total minL maxL).1.sum : ℤ) < total + maxL) ∧
    (((maxL : ℤ) < total ∨ total ≤ (minL : ℤ)) →
      total ≤ ((determineSegLengths g i total minL maxL).1.sum : ℤ)) ∧
    ((minL : ℤ) < total → total ≤ (maxL : ℤ) →
      (determineSegLengths g i total minL maxL).1 = [minL]) := by
  by_cases hbr : total ≤ (maxL : ℤ)
  · have hre : determineSegLengths g i total minL maxL = ([minL], i) := by
      rw [determineSegLengths, if_pos hbr]
    rw [hre]
    refine ⟨?_, ?_, ?_, ?_⟩
    · intro x hx
      have : x = minL := by simpa using hx
      subst this
      exact ⟨le_refl _, hmm⟩
    · simp only [List.sum_cons, List.sum_nil]
      omega
    · intro h
      simp only [List.sum_cons, List.sum_nil]
      omega
    · intro _ _; rfl
  · have hbr' : (maxL : ℤ) < total := by omega
    set maxSize := (total.toNat + minL - 1) / minL with hms
    set drawn := (List.range maxSize).map
      (fun j => minL + g (i + j) % (maxL + 1 - minL)) with hdr
    have hre : determineSegLengths g i total minL maxL =
        (plannerTail total minL drawn, i + maxSize) := by
      rw [determineSegLengths, if_neg hbr]
    have helem : ∀ x ∈ drawn, minL ≤ x ∧ x ≤ maxL := by
      intro x hx
      rw [hdr] at hx
      obtain ⟨j, _, hj⟩ := List.mem_map.mp hx
      have hpos : 0 < maxL + 1 - minL := by omega
      have := Nat.mod_lt (g (i + j)) hpos
      omega
    have hlen : drawn.length = maxSize := by
      rw [hdr, List.length_map, List.length_range]
    have hs1 : 1 ≤ maxSize := by
      rw [hms]
      have h1 : 1 * minL ≤ total.toNat + minL - 1 := by omega
      exact (Nat.le_div_iff_mul_le (by omega)).mpr h1
    have hne : drawn ≠ [] := by
      intro h
      rw [h] at hlen
      simp at hlen
      omega
    have hsum : total ≤ (drawn.sum : ℤ) := by
      have h1 : drawn.length * minL ≤ drawn.sum := listSumLowerBound drawn minL
        fun x hx => (helem x hx).1
      have h2 : total.toNat ≤ maxSize * minL := by
        rw [hms]; exact ceilDiv_mul_ge total.toNat minL (by omega)
      rw [hlen] at h1
      omega
    obtain ⟨p1, p2, p3⟩ := plannerTail_bounds total minL maxL drawn hmin hmm
      hbr' helem hsum hne
    rw [hre]
    exact ⟨p1, p3, fun _ => p2, fun _ h2 => absurd h2 (by omega)⟩

/-- C3 counterexample to the claim as stated: with `num_beats_total = 3`,
`min_len_segment = 1`, `max_len_segment = 5` (so `min < total ≤ max`) the
planner returns `[1]`, whose sum 1 falls short of the requested 3: the
sum does not lie in `[num_beats_total, num_beats_total + max)`. -/
theorem determineSegLengths_undersized :
    (determineSegLengths (fun _ => 0) 0 3 1 5).1 = [1] ∧
    ¬ ((3 : ℤ) ≤ ((determineSegLengths (fun _ => 0) 0 3 1 5).1.sum : ℤ)) := by
  constructor
  · rfl
  · decide

/-- Witness for `determineSegLengths_bounds` at a concrete input:
budget 5, lengths in `[2, 3]`, the all-zero oracle (drawing `[2, 2, 2]`,
keeping `[2, 2]` and closing with 2). -/
theorem determineSegLengths_bounds_witness :
    (∀ x ∈ (determineSegLengths (fun _ => 0) 0 5 2 3).1, 2 ≤ x ∧ x ≤ 3) ∧
    (((determineSegLengths (fun _ => 0) 0 5 2 3).1.sum : ℤ) < 5 + 3) ∧
    (((3 : ℤ) < 5 ∨ (5 : ℤ) ≤ 2) →
      (5 : ℤ) ≤ ((determineSegLengths (fun _ => 0) 0 5 2 3).1.sum : ℤ)) ∧
    ((2 : ℤ) < 5 → (5 : ℤ) ≤ 3 →
      (determineSegLengths (fun _ => 0) 0 5 2 3).1 = [2]) :=
  determineSegLengths_bounds (fun _ => 0) 0 5 2 3 (by decide) (by decide) (by decide)

/-! ### C7: insufficient beats of a class -/

/-- C7: whenever the allocated count of a class exceeds the beats of
that class available in the table, `_pick_target_beats` catches the
`ValueError` of the without-replacement draw, warns, and returns all
available beats of the class — no exception reaches the caller, so the
per-class sampling loop continues with the next class. -/
theorem pickTargetBeats_shortfall (g : ℕ → ℕ) (i : ℕ) (tgt : ℕ) (n : ℤ)
    (tbl : List Beat)
    (h : ((tbl.filter fun b => b.target = tgt).length : ℤ) < n) :
    pickTargetBeats g i tgt n tbl =
      some ((tbl.filter fun b => b.target = tgt).map fun b => b.id,
        i + (tbl.filter fun b => b.target = tgt).length) ∧
    pickTargetBeatsWarns tgt n tbl = true := by
  have hlen : ((tbl.filter fun b => b.target = tgt).map fun b => b.id).length
      = (tbl.filter fun b => b.target = tgt).length := List.length_map _ _
  constructor
  · rw [pickTargetBeats]
    have h0 : ¬ (n < 0) := by omega
    have h1 : (((tbl.filter fun b => b.target = tgt).map fun b => b.id).length : ℤ) < n := by
      rw [hlen]; exact h
    rw [choiceNoReplace, if_neg h0, if_pos h1]
    rw [if_pos h1, hlen]
  · rw [pickTargetBeatsWarns]
    simp only [decide_eq_true_eq]
    exact h

/-- Witness for `pickTargetBeats_shortfall`: one class-1 beat, three
requested. -/
theorem pickTargetBeats_shortfall_witness :
    pickTargetBeats (fun _ => 0) 0 1 3 [⟨0, 0, 10, 1, 0, false, false, false⟩] =
      some ([0], 1) ∧
    pickTargetBeatsWarns 1 3 [⟨0, 0, 10, 1, 0, false, false, false⟩] = true :=
  pickTargetBeats_shortfall (fun _ => 0) 0 1 3
    [⟨0, 0, 10, 1, 0, false, false, false⟩] (by decide)

/-! ### C8: segment-length validation -/

/-- C8 (amended): whenever `num_beats` is an integer, a call with
`min_len_segment < 1`, `max_len_segment < 1` or
`max_len_segment < min_len_segment` raises the configuration
`ValueError` before any data is drawn, whatever the other parameters.
(With `num_beats = None` the validation block is skipped entirely; see
the counterexample.) -/
theorem provideData_validation (g : ℕ → ℕ) (i fuel : ℕ) (st : List Beat)
    (n : ℤ) (inc exc : List (Col × List ℤ)) (tp : TargetProbs) (cs : Bool)
    (ma : Option ℤ) (ms : MatchSegments) (minL maxL : ℤ) (ru : Bool)
    (h : minL < 1 ∨ maxL < 1 ∨ maxL < minL) :
    provideData g i fuel st (some n) inc exc tp cs ma ms minL maxL ru =
      .error .configLen := by
  have hcore : provideDataCore g i fuel st (some n) inc exc tp cs ma ms minL maxL =
      .error .configLen := by
    rw [provideDataCore]
    by_cases hv : minL < 1 ∨ maxL < 1
    · rw [if_pos hv]
    · have h2 : maxL < minL := by omega
      rw [if_neg hv, if_pos h2]
  rw [provideData, hcore]

/-- C8 counterexample to the claim as stated: with `num_beats = None`
(also a supported value) the source skips the validation block, so
`min_len_segment = 0` and `max_len_segment = 0` raise nothing — the
call returns all filtered data. -/
theorem provideData_skips_validation :
    provideData (fun _ => 0) 0 1 [⟨0, 0, 1, 0, 0, false, false, false⟩] none
      [] [(Col.is_used, [1])] .nullProbs false none ⟨false, false, false⟩ 0 0 true =
      .ok (([⟨0, 0, 1, 0, 0, false, false, false⟩], none),
        [⟨0, 0, 1, 0, 0, false, false, false⟩], 0) := by
  rfl

/-- Witness for `provideData_validation`: a concrete invalid call. -/
theorem provideData_validation_witness :
    provideData (fun _ => 0) 0 1 [] (some 5) [] [] .nullProbs false none
      ⟨false, false, false⟩ 0 1 false = .error .configLen :=
  provideData_validation (fun _ => 0) 0 1 [] 5 [] [] .nullProbs false none
    ⟨false, false, false⟩ 0 1 false (by decide)

/-! ### C6: the `is_used` frame effect -/

theorem markUsed_forall₂ (ids : List ℤ) (st : List Beat) :
    List.Forall₂ (fun b' b =>
      b'.id = b.id ∧ b'.idx_start = b.idx_start ∧ b'.idx_end = b.idx_end ∧
      b'.target = b.target ∧ b'.recording = b.recording ∧
      b'.bad_signal = b.bad_signal ∧ b'.is_anomal = b.is_anomal ∧
      b'.is_used = (b.is_used || decide (b.id ∈ ids)))
      (markUsed ids st) st := by
  induction st with
  | nil => exact List.Forall₂.nil
  | cons b rest ih =>
      refine List.Forall₂.cons ?_ ih
      by_cases hmem : b.id ∈ ids
      · simp [hmem]
      · simp [hmem]

theorem markUsed_idem (ids : List ℤ) (st : List Beat) :
    markUsed ids (markUsed ids st) = markUsed ids st := by
  induction st with
  | nil => rfl
  | cons b rest ih =>
      simp only [markUsed, List.map_cons] at ih ⊢
      by_cases hmem : b.id ∈ ids
      · rw [if_pos hmem, if_pos hmem, ih]
      · rw [if_neg hmem, if_neg hmem, ih]

/-- C6: `provide_data` with `remain_unused=True` returns the repository
table unchanged; with `remain_unused=False` the new table is exactly
`markUsed` of the selected ids — row by row every column agrees with the
old table and `is_used` becomes true precisely on the returned beats
(an already-used beat stays true: re-marking is a no-op) — and marking
twice equals marking once. -/
theorem provideData_frame (g : ℕ → ℕ) (i fuel : ℕ) (st : List Beat)
    (numBeats : Option ℤ) (inc exc : List (Col × List ℤ)) (tp : TargetProbs)
    (cs : Bool) (ma : Option ℤ) (ms : MatchSegments) (minL maxL : ℤ)
    (sel : List Beat) (segIds : Option (List ℕ)) (st' : List Beat) (i' : ℕ) :
    (provideData g i fuel st numBeats inc exc tp cs ma ms minL maxL true =
        .ok ((sel, segIds), st', i') → st' = st) ∧
    (provideData g i fuel st numBeats inc exc tp cs ma ms minL maxL false =
        .ok ((sel, segIds), st', i') →
      st' = markUsed (sel.map fun b => b.id) st ∧
      List.Forall₂ (fun b' b =>
        b'.id = b.id ∧ b'.idx_start = b.idx_start ∧ b'.idx_end = b.idx_end ∧
        b'.target = b.target ∧ b'.recording = b.recording ∧
        b'.bad_signal = b.bad_signal ∧ b'.is_anomal = b.is_anomal ∧
        b'.is_used = (b.is_used || decide (b.id ∈ sel.map fun b => b.id)))
        st' st) ∧
    (markUsed (sel.map fun b => b.id) (markUsed (sel.map fun b => b.id) st) =
      markUsed (sel.map fun b => b.id) st) := by
  refine ⟨?_, ?_, markUsed_idem _ st⟩
  · intro h
    rw [provideData] at h
    cases hcore : provideDataCore g i fuel st numBeats inc exc tp cs ma ms minL maxL with
    | error e => rw [hcore] at h; cases h
    | ok r =>
        obtain ⟨⟨s, d⟩, j⟩ := r
        rw [hcore] at h
        simp only [Except.ok.injEq, Prod.mk.injEq] at h
        exact h.2.1.symm
  · intro h
    rw [provideData] at h
    cases hcore : provideDataCore g i fuel st numBeats inc exc tp cs ma ms minL maxL with
    | error e => rw [hcore] at h; cases h
    | ok r =>
        obtain ⟨⟨s, d⟩, j⟩ := r
        rw [hcore] at h
        simp only [Except.ok.injEq, Prod.mk.injEq] at h
        obtain ⟨⟨hsel, hseg⟩, hst, hi⟩ := h
        subst hsel
        constructor
        · exact hst.symm
        · rw [← hst]
          exact markUsed_forall₂ _ st

/-- Witness for `provideData_frame`: a one-beat repository queried with
`num_beats = None`; marking sets the beat's flag, as `markUsed` says. -/
theorem provideData_frame_witness :
    [(⟨0, 0, 1, 0, 0, false, false, true⟩ : Beat)] =
      markUsed [0] [⟨0, 0, 1, 0, 0, false, false, false⟩] :=
  ((provideData_frame (fun _ => 0) 0 1 [⟨0, 0, 1, 0, 0, false, false, false⟩]
    none [] [(Col.is_used, [1])] .nullProbs false none ⟨false, false, false⟩ 1 1
    [⟨0, 0, 1, 0, 0, false, false, false⟩] none
    [⟨0, 0, 1, 0, 0, false, false, true⟩] 0).2.1 rfl).1

/-! ### C5: the `extend` pass of `generate_target` -/

/-- C5: the implemented `extend` loop diverges from the documented one.
For two beats — class 1 for 2 samples, then class 0 for 3 samples — and
`extend = 1`, the base stream is `[1,1,0,0,0]` and the documented
behavior (pad the anomaly forward over the transition at position 2)
yields `[1,1,1,0,0]`; the code instead iterates over the **boolean**
transition mask, so each `False` writes `target[-1]` over `target[0:1]`
and each `True` writes `target[0]` over `target[1:2]`, producing
`[0,0,0,0,0]`.  The code contradicts its own docstring ("a fixed number
of time steps by which a nonzero-target is extended after its end"). -/
theorem generateTarget_extend_bug :
    generateTargetStream
      [⟨0, 0, 2, 1, 0, false, false, false⟩, ⟨1, 2, 5, 0, 0, false, false, false⟩]
      none (some 1) = some [0, 0, 0, 0, 0] ∧
    specExtendStream 1 0 [1, 1, 0, 0, 0] = [1, 1, 1, 0, 0] ∧
    ¬ (generateTargetStream
      [⟨0, 0, 2, 1, 0, false, false, false⟩, ⟨1, 2, 5, 0, 0, false, false, false⟩]
      none (some 1) = some (specExtendStream 1 0 [1, 1, 0, 0, 0])) := by
  refine ⟨by decide, by decide, by decide⟩

/-! ### Lemmas about `np.unique` and the count allocator -/

theorem insertAsc_mem (x : ℕ) : ∀ (l : List ℕ) (y : ℕ),
    y ∈ insertAsc x l ↔ y = x ∨ y ∈ l := by
  intro l
  induction l with
  | nil => intro y; simp [insertAsc]
  | cons z zs ih =>
      intro y
      rw [insertAsc]
      by_cases h1 : x < z
      · rw [if_pos h1]; simp
      · rw [if_neg h1]
        by_cases h2 : x = z
        · rw [if_pos h2]; subst h2; simp
        · rw [if_neg h2]; simp [ih]; tauto

theorem sortedUnique_mem : ∀ (l : List ℕ) (y : ℕ),
    y ∈ sortedUnique l ↔ y ∈ l := by
  intro l
  induction l with
  | nil => intro y; simp [sortedUnique]
  | cons z zs ih =>
      intro y
      rw [sortedUnique, List.foldr_cons, insertAsc_mem]
      rw [sortedUnique] at ih
      simp [ih]

theorem insertAsc_sorted (x : ℕ) : ∀ (l : List ℕ),
    l.Sorted (· < ·) → (insertAsc x l).Sorted (· < ·) := by
  intro l
  induction l with
  | nil => intro _; simp [insertAsc]
  | cons z zs ih =>
      intro hs
      rw [List.sorted_cons] at hs
      rw [insertAsc]
      by_cases h1 : x < z
      · rw [if_pos h1]
        rw [List.sorted_cons]
        refine ⟨?_, List.sorted_cons.mpr hs⟩
        intro b hb
        rcases List.mem_cons.mp hb with rfl | hb
        · exact h1
        · exact lt_trans h1 (hs.1 b hb)
      · rw [if_neg h1]
        by_cases h2 : x = z
        · rw [if_pos h2]; exact List.sorted_cons.mpr hs
        · rw [if_neg h2]
          rw [List.sorted_cons]
          refine ⟨?_, ih hs.2⟩
          intro b hb
          rcases (insertAsc_mem x zs b).mp hb with rfl | hb
          · omega
          · exact hs.1 b hb

theorem sortedUnique_sorted : ∀ (l : List ℕ), (sortedUnique l).Sorted (· < ·) := by
  intro l
  induction l with
  | nil => simp [sortedUnique]
  | cons z zs ih =>
      rw [sortedUnique, List.foldr_cons]
      exact insertAsc_sorted z _ ih

theorem sortedUnique_nodup (l : List ℕ) : (sortedUnique l).Nodup :=
  (sortedUnique_sorted l).nodup

theorem sortedUnique_ne_nil {l : List ℕ} (h : l ≠ []) : sortedUnique l ≠ [] := by
  cases l with
  | nil => exact absurd rfl h
  | cons z zs =>
      intro hcontra
      have : z ∈ sortedUnique (z :: zs) := (sortedUnique_mem _ z).mpr (by simp)
      rw [hcontra] at this
      simp at this

theorem uniqueCounts_keys (l : List ℕ) :
    (uniqueCounts l).map Prod.fst = sortedUnique l := by
  rw [uniqueCounts, List.map_map]
  exact List.map_id _

theorem uniqueCounts_pos (l : List ℕ) :
    ∀ p ∈ uniqueCounts l, 0 < p.2 := by
  intro p hp
  obtain ⟨t, ht, rfl⟩ := List.mem_map.mp hp
  have : t ∈ l := (sortedUnique_mem l t).mp ht
  exact List.count_pos_iff.mpr this

theorem int_ediv_add_ediv_le (a b S : ℤ) (hS : 0 < S) :
    a / S + b / S ≤ (a + b) / S := by
  rw [Int.le_ediv_iff_mul_le hS, add_mul]
  have h1 : a / S * S ≤ a := Int.ediv_mul_le a (ne_of_gt hS)
  have h2 : b / S * S ≤ b := Int.ediv_mul_le b (ne_of_gt hS)
  omega

theorem int_sum_div_le (S : ℤ) (hS : 0 < S) : ∀ (l : List ℤ),
    (l.map fun a => a / S).sum ≤ l.sum / S := by
  intro l
  induction l with
  | nil => simp
  | cons a as ih =>
      simp only [List.map_cons, List.sum_cons]
      calc a / S + (as.map fun a => a / S).sum ≤ a / S + as.sum / S := by omega
      _ ≤ (a + as.sum) / S := int_ediv_add_ediv_le _ _ _ hS

theorem addToKey_keys (t : ℕ) (v : ℤ) : ∀ (l : List (ℕ × ℤ)),
    (addToKey t v l).map Prod.fst = l.map Prod.fst := by
  intro l
  induction l with
  | nil => rfl
  | cons p ps ih =>
      obtain ⟨t', c⟩ := p
      rw [addToKey]
      by_cases h : t' = t
      · rw [if_pos h]; simp
      · rw [if_neg h]; simp [ih]

theorem addToKey_sum (t : ℕ) (v : ℤ) : ∀ (l : List (ℕ × ℤ)),
    t ∈ l.map Prod.fst →
    ((addToKey t v l).map Prod.snd).sum = (l.map Prod.snd).sum + v := by
  intro l
  induction l with
  | nil => intro h; simp at h
  | cons p ps ih =>
      intro h
      obtain ⟨t', c⟩ := p
      rw [addToKey]
      by_cases h1 : t' = t
      · rw [if_pos h1]; simp; ring
      · rw [if_neg h1]
        have ht : t ∈ ps.map Prod.fst := by
          rcases List.mem_map.mp h with ⟨q, hq, hqt⟩
          rcases List.mem_cons.mp hq with rfl | hq
          · exact absurd hqt h1
          · exact List.mem_map.mpr ⟨q, hq, hqt⟩
        simp only [List.map_cons, List.sum_cons, ih ht]
        ring

theorem addToKey_entries (t : ℕ) (v : ℤ) : ∀ (l : List (ℕ × ℤ)),
    ∀ p ∈ addToKey t v l, p ∈ l ∨ ∃ c, (p.1, c) ∈ l ∧ p.2 = c + v := by
  intro l
  induction l with
  | nil => intro p hp; simp [addToKey] at hp
  | cons q qs ih =>
      intro p hp
      obtain ⟨t', c⟩ := q
      rw [addToKey] at hp
      by_cases h1 : t' = t
      · rw [if_pos h1] at hp
        rcases List.mem_cons.mp hp with rfl | hp
        · right; exact ⟨c, by simp, rfl⟩
        · left; exact List.mem_cons_of_mem _ hp
      · rw [if_neg h1] at hp
        rcases List.mem_cons.mp hp with rfl | hp
        · left; simp
        · rcases ih p hp with h2 | ⟨c', hc', he⟩
          · left; exact List.mem_cons_of_mem _ h2
          · right; exact ⟨c', List.mem_cons_of_mem _ hc', he⟩

theorem listSumPosInt : ∀ (l : List ℤ), (∀ x ∈ l, 0 < x) → l ≠ [] → 0 < l.sum := by
  intro l
  induction l with
  | nil => intro _ h; exact absurd rfl h
  | cons a as ih =>
      intro h _
      have ha := h a (by simp)
      rcases as with _ | ⟨b, bs⟩
      · simpa
      · have := ih (fun x hx => h x (List.mem_cons_of_mem _ hx)) (by simp)
        rw [List.sum_cons]
        omega

theorem listSumMulLeft (a : ℤ) (f : ℕ × ℕ → ℤ) : ∀ (l : List (ℕ × ℕ)),
    (l.map fun x => a * f x).sum = a * (l.map f).sum := by
  intro l
  induction l with
  | nil => simp
  | cons p ps ih =>
      simp only [List.map_cons, List.sum_cons, ih]
      ring

theorem rcaGo_keys (g : ℕ → ℕ) : ∀ (n i : ℕ) (counts : List (ℕ × ℤ)),
    (randomChoicesAdd.randomChoicesAddGo g i n counts).map Prod.fst =
      counts.map Prod.fst := by
  intro n
  induction n with
  | zero => intro i counts; rfl
  | succ m ih =>
      intro i counts
      rw [randomChoicesAdd.randomChoicesAddGo, ih, addToKey_keys]

theorem rcaGo_sum (g : ℕ → ℕ) : ∀ (n i : ℕ) (counts : List (ℕ × ℤ)),
    counts ≠ [] →
    ((randomChoicesAdd.randomChoicesAddGo g i n counts).map Prod.snd).sum =
      (counts.map Prod.snd).sum + n := by
  intro n
  induction n with
  | zero => intro i counts _; simp [randomChoicesAdd.randomChoicesAddGo]
  | succ m ih =>
      intro i counts hne
      rw [randomChoicesAdd.randomChoicesAddGo]
      have hkeyne : counts.map Prod.fst ≠ [] := by
        cases counts with
        | nil => exact absurd rfl hne
        | cons p ps => simp
      have hklen : 0 < (counts.map Prod.fst).length := by
        cases h : counts.map Prod.fst with
        | nil => exact absurd h hkeyne
        | cons q qs => simp
      have hmem : (counts.map Prod.fst).getD
          (g i % (counts.map Prod.fst).length) 0 ∈ counts.map Prod.fst := by
        rw [List.getD_eq_getElem _ _ (Nat.mod_lt _ hklen)]
        exact List.getElem_mem _
      have hane : addToKey ((counts.map Prod.fst).getD
          (g i % (counts.map Prod.fst).length) 0) 1 counts ≠ [] := by
        intro hc
        have := addToKey_keys ((counts.map Prod.fst).getD
          (g i % (counts.map Prod.fst).length) 0) 1 counts
        rw [hc] at this
        exact hkeyne this.symm
      rw [ih _ _ hane, addToKey_sum _ _ _ hmem]
      push_cast
      ring

theorem rcaGo_nonneg (g : ℕ → ℕ) : ∀ (n i : ℕ) (counts : List (ℕ × ℤ)),
    (∀ p ∈ counts, 0 ≤ p.2) →
    ∀ p ∈ randomChoicesAdd.randomChoicesAddGo g i n counts, 0 ≤ p.2 := by
  intro n
  induction n with
  | zero => intro i counts h; exact h
  | succ m ih =>
      intro i counts h
      rw [randomChoicesAdd.randomChoicesAddGo]
      refine ih _ _ ?_
      intro p hp
      rcases addToKey_entries _ _ _ p hp with h1 | ⟨c, hc, he⟩
      · exact h p h1
      · have := h (p.1, c) hc
        simp only at this
        omega

theorem randomChoicesAdd_spec (g : ℕ → ℕ) (i : ℕ) (k : ℤ)
    (counts : List (ℕ × ℤ)) (hne : counts ≠ []) (hk : 0 ≤ k)
    (hnn : ∀ p ∈ counts, 0 ≤ p.2) :
    ∃ counts' i', randomChoicesAdd g i k counts = some (counts', i') ∧
      (∀ p ∈ counts', 0 ≤ p.2) ∧
      (counts'.map Prod.snd).sum = (counts.map Prod.snd).sum + k := by
  rw [randomChoicesAdd]
  by_cases hk0 : k ≤ 0
  · rw [if_pos hk0]
    exact ⟨counts, i, rfl, hnn, by omega⟩
  · rw [if_neg hk0, if_neg hne]
    refine ⟨_, _, rfl, rcaGo_nonneg g k.toNat i counts hnn, ?_⟩
    rw [rcaGo_sum g k.toNat i counts hne]
    omega

theorem listSumConst (c : ℤ) : ∀ (l : List (ℕ × ℕ)),
    (l.map fun _ => c).sum = l.length * c := by
  intro l
  induction l with
  | nil => simp
  | cons p ps ih =>
      simp only [List.map_cons, List.sum_cons, List.length_cons, ih]
      push_cast
      ring

/-- The residual-repair step of `_determine_beat_counts` (lines 924-932)
keeps every count non-negative and brings the total to `num_beats`,
provided the base counts are non-negative and do not exceed the budget. -/
theorem repairPhase (g : ℕ → ℕ) (i : ℕ) (N : ℤ) (base : List (ℕ × ℤ))
    (hne : base ≠ []) (hnn : ∀ p ∈ base, 0 ≤ p.2)
    (hle : (base.map Prod.snd).sum ≤ N) :
    ∃ repaired : List (ℕ × ℤ) × ℕ,
      dbcRepair g i (N - (base.map Prod.snd).sum) base = some repaired ∧
      (∀ p ∈ repaired.1, 0 ≤ p.2) ∧ (repaired.1.map Prod.snd).sum = N := by
  have hdnn : 0 ≤ N - (base.map Prod.snd).sum := by omega
  rw [dbcRepair]
  by_cases h0 : 0 ∈ base.map Prod.fst
  · rw [if_pos h0]
    refine ⟨(addToKey 0 (N - (base.map Prod.snd).sum) base, i), rfl, ?_, ?_⟩
    · intro p hp
      rcases addToKey_entries _ _ _ p hp with h1 | ⟨c, hc, he⟩
      · exact hnn p h1
      · have := hnn (p.1, c) hc
        simp only at this
        omega
    · rw [addToKey_sum _ _ _ h0]
      omega
  · rw [if_neg h0]
    obtain ⟨c', i', heq, hnn', hsum⟩ :=
      randomChoicesAdd_spec g i (N - (base.map Prod.snd).sum) base hne hdnn hnn
    exact ⟨(c', i'), heq, hnn', by rw [hsum]; omega⟩

/-- C1 (amended): for a non-empty annotation subset, a non-negative
budget and `target_probs` either `None` or `"uniform"`, the count
allocator succeeds, every per-class count is non-negative, and the
counts sum to exactly `num_beats`.  (For an explicit weight dict the
rounding residual can be negative, where the repair step fails to
subtract — see the counterexample.) -/
theorem determineBeatCounts_total (g : ℕ → ℕ) (i : ℕ) (N : ℤ) (tbl : List Beat)
    (tp : TargetProbs) (htbl : tbl ≠ []) (hN : 0 ≤ N)
    (htp : tp = TargetProbs.nullProbs ∨ tp = TargetProbs.uniform) :
    ∃ counts i', determineBeatCounts g i N tbl tp false = some (counts, i') ∧
      (∀ p ∈ counts, 0 ≤ p.2) ∧ (counts.map Prod.snd).sum = N := by
  have htgne : tbl.map (fun b => b.target) ≠ [] := by
    cases tbl with
    | nil => exact absurd rfl htbl
    | cons b bs => simp
  have hallne : uniqueCounts (tbl.map fun b => b.target) ≠ [] := by
    rw [uniqueCounts]
    intro h
    exact sortedUnique_ne_nil htgne (List.map_eq_nil_iff.mp h)
  obtain rfl | rfl := htp
  · set allT := uniqueCounts (tbl.map fun b => b.target) with hallT
    set S : ℤ := (allT.map fun p => (p.2 : ℤ)).sum with hSdef
    have hSpos : 0 < S := by
      rw [hSdef]
      refine listSumPosInt _ ?_ ?_
      · intro x hx
        obtain ⟨p, hp, rfl⟩ := List.mem_map.mp hx
        have := uniqueCounts_pos _ p hp
        exact_mod_cast this
      · intro h
        exact hallne (List.map_eq_nil_iff.mp h)
    set base := allT.map (fun p => (p.1, N * (p.2 : ℤ) / S)) with hbase
    have hbne : base ≠ [] := by
      rw [hbase]
      intro h
      exact hallne (List.map_eq_nil_iff.mp h)
    have hbnn : ∀ p ∈ base, 0 ≤ p.2 := by
      intro p hp
      rw [hbase] at hp
      obtain ⟨q, _, rfl⟩ := List.mem_map.mp hp
      exact Int.ediv_nonneg (mul_nonneg hN (by positivity)) (le_of_lt hSpos)
    have hble : (base.map Prod.snd).sum ≤ N := by
      rw [hbase, List.map_map]
      have hcomp : (Prod.snd ∘ fun p : ℕ × ℕ => (p.1, N * (p.2 : ℤ) / S)) =
          fun p : ℕ × ℕ => N * (p.2 : ℤ) / S := rfl
      rw [hcomp]
      calc (allT.map fun p : ℕ × ℕ => N * (p.2 : ℤ) / S).sum
          = ((allT.map fun p : ℕ × ℕ => N * (p.2 : ℤ)).map fun a => a / S).sum := by
            rw [List.map_map]; rfl
        _ ≤ (allT.map fun p : ℕ × ℕ => N * (p.2 : ℤ)).sum / S :=
            int_sum_div_le S hSpos _
        _ = (N * S) / S := by rw [listSumMulLeft N (fun p => (p.2 : ℤ)) allT, ← hSdef]
        _ = N := Int.mul_ediv_cancel N (ne_of_gt hSpos)
    obtain ⟨repaired, heqr, hrnn, hrsum⟩ := repairPhase g i N base hbne hbnn hble
    refine ⟨repaired.1, repaired.2, ?_, hrnn, hrsum⟩
    have hb : dbcBase N tbl TargetProbs.nullProbs = some base := by
      simp only [dbcBase, ← hallT, ← hSdef, ← hbase]
    simp only [determineBeatCounts, hb, heqr]
    rfl
  · set allT := uniqueCounts (tbl.map fun b => b.target) with hallT
    have hlen : allT.length ≠ 0 := by
      intro h
      exact hallne (List.length_eq_zero.mp h)
    set base := allT.map (fun p => (p.1, N / (allT.length : ℤ))) with hbase
    have hper : 0 ≤ N / (allT.length : ℤ) :=
      Int.ediv_nonneg hN (by positivity)
    have hbne : base ≠ [] := by
      rw [hbase]
      intro h
      exact hallne (List.map_eq_nil_iff.mp h)
    have hbnn : ∀ p ∈ base, 0 ≤ p.2 := by
      intro p hp
      rw [hbase] at hp
      obtain ⟨q, _, rfl⟩ := List.mem_map.mp hp
      exact hper
    have hble : (base.map Prod.snd).sum ≤ N := by
      rw [hbase, List.map_map]
      have hcomp : (Prod.snd ∘ fun p : ℕ × ℕ => (p.1, N / (allT.length : ℤ))) =
          fun _ : ℕ × ℕ => N / (allT.length : ℤ) := rfl
      rw [hcomp, listSumConst]
      have hlpos : (0 : ℤ) < (allT.length : ℤ) := by
        have : 0 < allT.length := Nat.pos_of_ne_zero hlen
        exact_mod_cast this
      have h1 : N / (allT.length : ℤ) * (allT.length : ℤ) ≤ N :=
        Int.ediv_mul_le N (ne_of_gt hlpos)
      calc (allT.length : ℤ) * (N / (allT.length : ℤ))
          = N / (allT.length : ℤ) * (allT.length : ℤ) := by ring
        _ ≤ N := h1
    obtain ⟨repaired, heqr, hrnn, hrsum⟩ := repairPhase g i N base hbne hbnn hble
    refine ⟨repaired.1, repaired.2, ?_, hrnn, hrsum⟩
    have hb : dbcBase N tbl TargetProbs.uniform = some base := by
      simp only [dbcBase, ← hallT, if_neg hlen, ← hbase]
    simp only [determineBeatCounts, hb, heqr]
    rfl

/-- C1 counterexample to the claim as stated: with the weight dict
`{1: 1, 2: 1, 3: 1}` (positive total weight), a non-empty table and
`num_beats = 2`, each class rounds to `round(2/3) = 1`, the residual is
`2 - 3 = -1`, class 0 is absent, and `random.choices(keys, k=-1)` yields
nothing — so the returned counts sum to 3, not to `num_beats = 2`. -/
theorem determineBeatCounts_overshoot :
    determineBeatCounts (fun _ => 0) 0 2 [⟨0, 0, 10, 1, 0, false, false, false⟩]
      (.probDict [(1, 1), (2, 1), (3, 1)]) false =
      some ([(1, 1), (2, 1), (3, 1)], 0) ∧
    ¬ ((([((1 : ℕ), (1 : ℤ)), (2, 1), (3, 1)]).map Prod.snd).sum = 2) := by
  constructor
  · have hr : roundHalfEven ((2 : ℚ) / 3) = 1 := by
      norm_num [roundHalfEven]
    simp only [determineBeatCounts, dbcBase, dbcRepair, List.map_cons,
      List.map_nil, List.sum_cons, List.sum_nil]
    norm_num [randomChoicesAdd, hr]
  · decide

/-- Witness for `determineBeatCounts_total`: one class-1 beat, budget 5,
proportional probabilities. -/
theorem determineBeatCounts_total_witness :
    ∃ counts i', determineBeatCounts (fun _ => 0) 0 5
        [⟨0, 0, 10, 1, 0, false, false, false⟩] TargetProbs.nullProbs false =
        some (counts, i') ∧
      (∀ p ∈ counts, 0 ≤ p.2) ∧ (counts.map Prod.snd).sum = 5 :=
  determineBeatCounts_total (fun _ => 0) 0 5
    [⟨0, 0, 10, 1, 0, false, false, false⟩] TargetProbs.nullProbs
    (by decide) (by decide) (Or.inl rfl)

/-! ### Lemmas about shuffling and drawing without replacement -/

theorem shuffleAux_perm {α : Type} (g : ℕ → ℕ) : ∀ (n : ℕ) (l : List α) (i : ℕ),
    l.length ≤ n → (shuffleAux g n l i).Perm l := by
  intro n
  induction n with
  | zero =>
      intro l i hl
      have : l = [] := List.length_eq_zero.mp (by omega)
      subst this
      exact List.Perm.refl _
  | succ m ih =>
      intro l i hl
      cases l with
      | nil => exact List.Perm.refl _
      | cons x xs =>
          rw [shuffleAux]
          have hk : g i % (x :: xs).length < (x :: xs).length :=
            Nat.mod_lt _ (Nat.succ_pos xs.length)
          have hlen : ((x :: xs).eraseIdx (g i % (x :: xs).length)).length ≤ m := by
            rw [List.length_eraseIdx, if_pos hk]
            simp only [List.length_cons] at hl ⊢
            omega
          have hperm1 := ih ((x :: xs).eraseIdx (g i % (x :: xs).length)) (i + 1) hlen
          refine List.Perm.trans (List.Perm.cons _ hperm1) ?_
          rw [List.eraseIdx_eq_take_drop_succ]
          have hdrop : (x :: xs).get ⟨g i % (x :: xs).length, hk⟩ ::
              (x :: xs).drop (g i % (x :: xs).length + 1) =
              (x :: xs).drop (g i % (x :: xs).length) := List.get_cons_drop _ _
          refine List.Perm.trans List.perm_middle.symm ?_
          rw [hdrop, List.take_append_drop]

theorem choiceNoReplace_spec (g : ℕ → ℕ) (i : ℕ) (pop : List ℤ) (k : ℤ)
    (s : List ℤ) (i' : ℕ) (h : choiceNoReplace g i pop k = some (s, i')) :
    (∀ x ∈ s, x ∈ pop) ∧ (pop.Nodup → s.Nodup) := by
  rw [choiceNoReplace] at h
  by_cases h0 : k < 0
  · rw [if_pos h0] at h; cases h
  · rw [if_neg h0] at h
    by_cases h1 : (pop.length : ℤ) < k
    · rw [if_pos h1] at h; cases h
    · rw [if_neg h1] at h
      have hperm := shuffleAux_perm g pop.length pop i (le_refl _)
      simp only [Option.some.injEq, Prod.mk.injEq] at h
      obtain ⟨hs, _⟩ := h
      subst hs
      constructor
      · intro x hx
        exact hperm.mem_iff.mp ((List.take_sublist _ _).subset hx)
      · intro hnd
        exact ((hperm.nodup_iff).mpr hnd).sublist (List.take_sublist _ _)

theorem pickTargetBeats_spec (g : ℕ → ℕ) (i : ℕ) (tgt : ℕ) (n : ℤ)
    (tbl : List Beat) (s : List ℤ) (i' : ℕ)
    (h : pickTargetBeats g i tgt n tbl = some (s, i')) :
    (∀ x ∈ s, x ∈ (tbl.filter fun b => b.target = tgt).map fun b => b.id) ∧
    (((tbl.filter fun b => b.target = tgt).map fun b => b.id).Nodup → s.Nodup) := by
  rw [pickTargetBeats] at h
  cases hc : choiceNoReplace g i ((tbl.filter fun b => b.target = tgt).map
      fun b => b.id) n with
  | some r =>
      rw [hc] at h
      obtain ⟨s', j⟩ := r
      simp only [Option.some.injEq, Prod.mk.injEq] at h
      obtain ⟨hs, _⟩ := h
      subst hs
      exact choiceNoReplace_spec g i _ n s' j hc
  | none =>
      rw [hc] at h
      by_cases hlt : ((((tbl.filter fun b => b.target = tgt).map
          fun b => b.id)).length : ℤ) < n
      · rw [if_pos hlt] at h
        simp only [Option.some.injEq, Prod.mk.injEq] at h
        obtain ⟨hs, _⟩ := h
        subst hs
        exact ⟨fun x hx => hx, fun hnd => hnd⟩
      · rw [if_neg hlt] at h; cases h

theorem filterMapId_nodup (tbl : List Beat) (p : Beat → Bool)
    (hnd : (tbl.map fun b => b.id).Nodup) :
    ((tbl.filter p).map fun b => b.id).Nodup :=
  hnd.sublist ((List.filter_sublist tbl).map fun b => b.id)

theorem pop_disjoint (tbl : List Beat) (t t' : ℕ)
    (hnd : (tbl.map fun b => b.id).Nodup) (hne : t ≠ t') (x : ℤ)
    (hx : x ∈ (tbl.filter fun b => b.target = t).map fun b => b.id)
    (hx' : x ∈ (tbl.filter fun b => b.target = t').map fun b => b.id) : False := by
  obtain ⟨b, hb, hbid⟩ := List.mem_map.mp hx
  obtain ⟨b', hb', hbid'⟩ := List.mem_map.mp hx'
  rw [List.mem_filter] at hb hb'
  have hbt : b.target = t := by simpa using hb.2
  have hbt' : b'.target = t' := by simpa using hb'.2
  have hbb : b = b' :=
    List.inj_on_of_nodup_map hnd hb.1 hb'.1 (by rw [hbid, hbid'])
  subst hbb
  exact hne (hbt ▸ hbt' ▸ rfl)

theorem pickBeatsLoop_spec (g : ℕ → ℕ) (tbl : List Beat)
    (hnd : (tbl.map fun b => b.id).Nodup) :
    ∀ (counts : List (ℕ × ℤ)) (i : ℕ) (res : List ℤ) (i' : ℕ),
      (counts.map Prod.fst).Nodup →
      pickBeatsLoop g tbl i counts = some (res, i') →
      res.Nodup ∧ ∀ x ∈ res, ∃ t ∈ counts.map Prod.fst,
        x ∈ (tbl.filter fun b => b.target = t).map fun b => b.id := by
  intro counts
  induction counts with
  | nil =>
      intro i res i' _ h
      rw [pickBeatsLoop] at h
      simp only [Option.some.injEq, Prod.mk.injEq] at h
      obtain ⟨hs, _⟩ := h
      subst hs
      exact ⟨List.nodup_nil, by simp⟩
  | cons p rest ih =>
      intro i res i' hknd h
      obtain ⟨t, c⟩ := p
      rw [pickBeatsLoop] at h
      cases hpt : pickTargetBeats g i t c tbl with
      | none => rw [hpt] at h; cases h
      | some r =>
          obtain ⟨chosen, i1⟩ := r
          rw [hpt] at h
          simp only [Option.bind_eq_bind, Option.some_bind] at h
          cases hloop : pickBeatsLoop g tbl i1 rest with
          | none => rw [hloop] at h; cases h
          | some r2 =>
              obtain ⟨later, i2⟩ := r2
              rw [hloop] at h
              simp only [Option.some_bind, Option.some.injEq, Prod.mk.injEq,
                pure, Option.some.injEq] at h
              obtain ⟨hs, _⟩ := h
              subst hs
              simp only [List.map_cons, List.nodup_cons] at hknd
              obtain ⟨hchm, hchn⟩ := pickTargetBeats_spec g i t c tbl chosen i1 hpt
              obtain ⟨hlnd, hlm⟩ := ih i1 later i2 hknd.2 hloop
              constructor
              · rw [List.nodup_append]
                refine ⟨hchn (filterMapId_nodup tbl _ hnd), hlnd, ?_⟩
                intro x hx hx'
                obtain ⟨t', ht', hxt'⟩ := hlm x hx'
                have htne : t ≠ t' := fun he => hknd.1 (he ▸ ht')
                exact pop_disjoint tbl t t' hnd htne x (hchm x hx) hxt'
              · intro x hx
                rcases List.mem_append.mp hx with h1 | h1
                · exact ⟨t, by simp, hchm x h1⟩
                · obtain ⟨t', ht', hxt'⟩ := hlm x h1
                  exact ⟨t', List.mem_cons_of_mem _ ht', hxt'⟩

theorem repair_keys (g : ℕ → ℕ) (i : ℕ) (k : ℤ) (base : List (ℕ × ℤ))
    (r : List (ℕ × ℤ) × ℕ) (h : dbcRepair g i k base = some r) :
    r.1.map Prod.fst = base.map Prod.fst := by
  rw [dbcRepair] at h
  by_cases h0 : 0 ∈ base.map Prod.fst
  · rw [if_pos h0] at h
    simp only [Option.some.injEq] at h
    rw [← h]
    exact addToKey_keys 0 k base
  · rw [if_neg h0, randomChoicesAdd] at h
    by_cases hk : k ≤ 0
    · rw [if_pos hk] at h
      simp only [Option.some.injEq] at h
      rw [← h]
    · rw [if_neg hk] at h
      by_cases hb : base = []
      · rw [if_pos hb] at h; cases h
      · rw [if_neg hb] at h
        simp only [Option.some.injEq] at h
        rw [← h]
        exact rcaGo_keys g k.toNat i base

theorem dbcBase_keys_nodup (N : ℤ) (tbl : List Beat) (tp : TargetProbs)
    (base : List (ℕ × ℤ)) (h : dbcBase N tbl tp = some base)
    (hkeys : ∀ l, tp = TargetProbs.probDict l → (l.map Prod.fst).Nodup) :
    (base.map Prod.fst).Nodup := by
  have hallnd : ((uniqueCounts (tbl.map fun b => b.target)).map Prod.fst).Nodup := by
    rw [uniqueCounts_keys]
    exact sortedUnique_nodup _
  cases tp with
  | nullProbs =>
      simp only [dbcBase, Option.some.injEq] at h
      rw [← h, List.map_map]
      exact hallnd
  | uniform =>
      simp only [dbcBase] at h
      by_cases hlen : (uniqueCounts (tbl.map fun b => b.target)).length = 0
      · rw [if_pos hlen] at h; cases h
      · rw [if_neg hlen] at h
        simp only [Option.some.injEq] at h
        rw [← h, List.map_map]
        exact hallnd
  | probDict l =>
      simp only [dbcBase] at h
      by_cases hnorm : ((l.map Prod.snd).sum : ℚ) = 0
      · rw [if_pos hnorm] at h; cases h
      · rw [if_neg hnorm] at h
        simp only [Option.some.injEq] at h
        rw [← h, List.map_map]
        exact hkeys l rfl

theorem determineBeatCounts_keys_nodup (g : ℕ → ℕ) (i : ℕ) (N : ℤ)
    (tbl : List Beat) (tp : TargetProbs) (counts : List (ℕ × ℤ)) (i' : ℕ)
    (h : determineBeatCounts g i N tbl tp false = some (counts, i'))
    (hkeys : ∀ l, tp = TargetProbs.probDict l → (l.map Prod.fst).Nodup) :
    (counts.map Prod.fst).Nodup := by
  rw [determineBeatCounts] at h
  cases hb : dbcBase N tbl tp with
  | none => rw [hb] at h; cases h
  | some base =>
      rw [hb] at h
      try dsimp only at h
      cases hr : dbcRepair g i (N - (base.map Prod.snd).sum) base with
      | none => rw [hr] at h; cases h
      | some r =>
          rw [hr] at h
          simp only [Bool.false_eq_true, if_false, Option.some.injEq,
            Prod.mk.injEq] at h
          obtain ⟨hc, _⟩ := h
          rw [← hc, repair_keys g i _ base r hr]
          exact dbcBase_keys_nodup N tbl tp base hb hkeys

theorem pickBeats_body_nodup (g : ℕ → ℕ) (i : ℕ) (n : ℤ) (tbl : List Beat)
    (tp : TargetProbs) (out : List ℤ) (i' : ℕ)
    (hnd : (tbl.map fun b => b.id).Nodup)
    (hkeys : ∀ l, tp = TargetProbs.probDict l → (l.map Prod.fst).Nodup)
    (h : (do
        let (counts, i1) ← determineBeatCounts g i n tbl tp false
        let (collected, i2) ← pickBeatsLoop g tbl i1 counts
        return shuffleList g i2 collected :
      Option (List ℤ × ℕ)) = some (out, i')) :
    out.Nodup := by
  cases hdb : determineBeatCounts g i n tbl tp false with
  | none => rw [hdb] at h; cases h
  | some r =>
      obtain ⟨counts, i1⟩ := r
      rw [hdb] at h
      simp only [Option.bind_eq_bind, Option.some_bind] at h
      cases hloop : pickBeatsLoop g tbl i1 counts with
      | none => rw [hloop] at h; cases h
      | some r2 =>
          obtain ⟨collected, i2⟩ := r2
          rw [hloop] at h
          simp only [Option.some_bind, pure, Option.some.injEq] at h
          have hknd := determineBeatCounts_keys_nodup g i n tbl tp counts i1 hdb hkeys
          have hcnd := (pickBeatsLoop_spec g tbl hnd counts i1 collected i2 hknd hloop).1
          have hout : out = shuffleAux g collected.length collected i2 := by
            rw [shuffleList] at h
            have := congrArg Prod.fst h
            simpa using this.symm
          rw [hout]
          exact ((shuffleAux_perm g collected.length collected i2
            (le_refl _)).nodup_iff).mpr hcnd

/-- C4 (amended): in plain-draw mode with `target_probs` equal to
`"uniform"` or an explicit weight dict, `_pick_beats` draws without
replacement per class and the classes are disjoint, so the returned
beat-id list holds no beat more than once (given unique table labels).
With `target_probs = None` the source draws with `np.random.choice`'s
default `replace=True`, and duplicates occur — see the counterexample. -/
theorem pickBeats_no_duplicates (g : ℕ → ℕ) (i : ℕ) (n : ℤ) (tbl : List Beat)
    (tp : TargetProbs) (out : List ℤ) (i' : ℕ)
    (hnd : (tbl.map fun b => b.id).Nodup)
    (htp : tp ≠ TargetProbs.nullProbs)
    (hkeys : ∀ l, tp = TargetProbs.probDict l → (l.map Prod.fst).Nodup)
    (h : pickBeats g i n tbl tp = some (out, i')) :
    out.Nodup := by
  cases tp with
  | nullProbs => exact absurd rfl htp
  | uniform => exact pickBeats_body_nodup g i n tbl .uniform out i' hnd hkeys h
  | probDict l => exact pickBeats_body_nodup g i n tbl (.probDict l) out i' hnd hkeys h

/-- C4 counterexample to the claim as stated: in plain-draw mode with
`target_probs = None`, a one-beat table and `num_beats = 2`, the draw
uses replacement and the same beat is returned twice. -/
theorem pickBeats_nullProbs_duplicates :
    pickBeats (fun _ => 0) 0 2 [⟨0, 0, 10, 0, 0, false, false, false⟩]
      TargetProbs.nullProbs = some ([0, 0], 2) ∧
    ¬ ([(0 : ℤ), 0].Nodup) := by
  exact ⟨by decide, by decide⟩

/-- Witness for `pickBeats_no_duplicates`: uniform probabilities over a
one-beat table, two beats requested (shortfall path, all-zero oracle). -/
theorem pickBeats_no_duplicates_witness :
    ([(0 : ℤ)]).Nodup :=
  pickBeats_no_duplicates (fun _ => 0) 0 2 [⟨0, 0, 10, 0, 0, false, false, false⟩]
    TargetProbs.uniform [0] 2 (by decide) (by decide) (fun l hl => by cases hl)
    (by decide)

/-! ### C2: contiguity of continuous segments -/

theorem pickContInner_inv (g : ℕ → ℕ) (minL maxL : ℕ) (Q : List ℤ → Prop)
    (hQ : ∀ (s : List ℤ) (a b : ℕ), Q s → Q ((s.drop a).take b)) :
    ∀ (fuel i : ℕ) (n : ℤ) (avail acc res : List (List ℤ)) (i2 : ℕ),
      (∀ s ∈ avail, Q s) → (∀ s ∈ acc, Q s) →
      pickContInner g minL maxL fuel i n avail acc = some (res, i2) →
      ∀ s ∈ res, Q s := by
  have hQtake : ∀ (s : List ℤ) (b : ℕ), Q s → Q (s.take b) := by
    intro s b hs
    have h0 := hQ s 0 b hs
    rwa [List.drop_zero] at h0
  have hQdrop : ∀ (s : List ℤ) (a : ℕ), Q s → Q (s.drop a) := by
    intro s a hs
    have h0 := hQ s a (s.drop a).length hs
    rwa [List.take_length] at h0
  intro fuel
  induction fuel with
  | zero =>
      intro i n avail acc res i2 _ _ h
      simp [pickContInner] at h
  | succ f ih =>
      intro i n avail acc res i2 hav hacc h
      simp only [pickContInner] at h
      split at h
      · rw [Option.some.injEq, Prod.mk.injEq] at h
        intro s hs
        rw [← h.1, List.mem_reverse] at hs
        exact hacc s hs
      · split at h
        · rw [Option.some.injEq, Prod.mk.injEq] at h
          intro s hs
          rw [← h.1, List.mem_reverse] at hs
          exact hacc s hs
        · rename_i hn0 hlen0
          have hk : g i % avail.length < avail.length :=
            Nat.mod_lt _ (Nat.pos_of_ne_zero hlen0)
          have hsubmem : avail.getD (g i % avail.length) [] ∈ avail := by
            rw [List.getD_eq_getElem _ _ hk]
            exact List.getElem_mem _
          have hsubQ : Q (avail.getD (g i % avail.length) []) := hav _ hsubmem
          have havail' : ∀ s ∈ avail.eraseIdx (g i % avail.length), Q s :=
            fun s hs => hav s ((avail.eraseIdx_sublist _).subset hs)
          split at h
          · refine ih (i + 1) _ _ _ res i2 havail' ?_ h
            intro s hs
            rcases List.mem_cons.mp hs with hs | hs
            · rw [hs]; exact hQtake _ _ hsubQ
            · exact hacc s hs
          · split at h
            · exact ih (i + 2) _ _ _ res i2 havail' hacc h
            · refine ih (i + 3) _ _ _ res i2 ?_ ?_ h
              · intro s hs
                rcases List.mem_append.mp hs with hs | hs
                · rcases List.mem_append.mp hs with hs | hs
                  · exact havail' s hs
                  · split at hs
                    · rw [List.mem_singleton.mp hs]
                      exact hQtake _ _ hsubQ
                    · exact absurd hs (List.not_mem_nil s)
                · split at hs
                  · rw [List.mem_singleton.mp hs]
                    exact hQdrop _ _ hsubQ
                  · exact absurd hs (List.not_mem_nil s)
              · intro s hs
                rcases List.mem_cons.mp hs with hs | hs
                · rw [hs]
                  exact hQtake _ _ (hQdrop _ _ hsubQ)
                · exact hacc s hs

theorem contRun_abuts (tbl : List Beat)
    (hnd : (tbl.map fun b => b.id).Nodup) (habut : TableAbuts tbl) :
    ∀ (s : List ℤ) (r : ℕ),
      s.Chain' (fun a b => b - a = 1) →
      (∀ x ∈ s, ∃ b ∈ tbl, b.id = x ∧ b.recording = r) →
      s.Chain' fun a b => ∀ ba ∈ tbl, ba.id = a → ∀ bb ∈ tbl, bb.id = b →
        bb.idx_start = ba.idx_end := by
  intro s r
  induction s with
  | nil => intro _ _; exact List.chain'_nil
  | cons x t ih =>
      intro hchain hmem
      cases t with
      | nil => exact List.chain'_singleton x
      | cons y t2 =>
          rw [List.chain'_cons] at hchain
          rw [List.chain'_cons]
          constructor
          · intro ba hba hbaa bb hbb hbbb
            obtain ⟨bx, hbx, hbxid, hbxr⟩ := hmem x (by simp)
            obtain ⟨bY, hbY, hbYid, hbYr⟩ := hmem y (by simp)
            have hax : ba = bx :=
              List.inj_on_of_nodup_map hnd hba hbx (by rw [hbaa, hbxid])
            have hby : bb = bY :=
              List.inj_on_of_nodup_map hnd hbb hbY (by rw [hbbb, hbYid])
            have hyx : y - x = 1 := hchain.1
            have h1 : bb.id = ba.id + 1 := by rw [hbaa, hbbb]; omega
            have h2 : bb.recording = ba.recording := by
              rw [hax, hby, hbxr, hbYr]
            exact habut ba hba bb hbb h1 h2
          · exact ih hchain.2 fun z hz => hmem z (List.mem_cons_of_mem x hz)

/-- C2 (amended): in continuous-segment mode the beats of every returned
segment share one recording, and consecutive beats of a segment abut
(`idx_start[i+1] = idx_end[i]`) PROVIDED the annotation table's index
labels are unique and consecutive same-recording rows abut
(`TableAbuts`).  The code only guarantees index-contiguity; the
sample-range contiguity of the claim needs this data invariant, and the
counterexample below breaks it. -/
theorem pickContSegmentsInner_contiguous (g : ℕ → ℕ) (i : ℕ) (n : ℤ)
    (tbl : List Beat) (minL maxL fuel : ℕ) (segs : List (List ℤ)) (i2 : ℕ)
    (hnd : (tbl.map fun b => b.id).Nodup) (habut : TableAbuts tbl)
    (h : pickContSegmentsInner g i n tbl minL maxL fuel = some (segs, i2)) :
    ∀ s ∈ segs,
      (∃ r : ℕ, ∀ x ∈ s, ∃ b ∈ tbl, b.id = x ∧ b.recording = r) ∧
      s.Chain' fun a b => ∀ ba ∈ tbl, ba.id = a → ∀ bb ∈ tbl, bb.id = b →
        bb.idx_start = ba.idx_end := by
  have hall : ∀ s ∈ segs,
      s.Chain' (fun a b => b - a = 1) ∧
      ∃ r : ℕ, ∀ x ∈ s, ∃ b ∈ tbl, b.id = x ∧ b.recording = r := by
    simp only [pickContSegmentsInner] at h
    refine pickContInner_inv g minL maxL _ ?_ fuel i n _ [] segs i2 ?_
      (by intro s hs; cases hs) h
    · intro s a b hs
      refine ⟨(hs.1.drop a).take b, ?_⟩
      obtain ⟨r, hr⟩ := hs.2
      exact ⟨r, fun x hx =>
        hr x (List.mem_of_mem_drop (List.mem_of_mem_take hx))⟩
    · intro s hs
      rw [List.mem_flatMap] at hs
      obtain ⟨rec, _, hsf⟩ := hs
      rw [List.mem_filter] at hsf
      refine ⟨splitAtDiscontinuity_runs s hsf.1, rec, ?_⟩
      intro x hx
      have hxid := splitAtDiscontinuity_run_subset hsf.1 x hx
      rw [List.mem_map] at hxid
      obtain ⟨b, hb, hbid⟩ := hxid
      rw [List.mem_filter] at hb
      exact ⟨b, hb.1, hbid, by simpa using hb.2⟩
  intro s hs
  obtain ⟨hchain, r, hmem⟩ := hall s hs
  exact ⟨⟨r, hmem⟩, contRun_abuts tbl hnd habut s r hchain hmem⟩

/-- C2 counterexample to the claim as stated for arbitrary tables: two
same-recording beats with consecutive index labels whose sample ranges
do NOT abut (idx_end 10, next idx_start 12) are returned as one
"continuous" segment, because the picker only inspects index labels. -/
theorem pickContSegmentsInner_gap :
    pickContSegmentsInner (fun _ => 0) 0 2
      [⟨0, 0, 10, 0, 0, false, false, false⟩,
        ⟨1, 12, 22, 0, 0, false, false, false⟩] 1 2 10 = some ([[0, 1]], 1) ∧
    ¬ (∀ ba ∈ [(⟨0, 0, 10, 0, 0, false, false, false⟩ : Beat),
          ⟨1, 12, 22, 0, 0, false, false, false⟩], ba.id = 0 →
        ∀ bb ∈ [(⟨0, 0, 10, 0, 0, false, false, false⟩ : Beat),
          ⟨1, 12, 22, 0, 0, false, false, false⟩], bb.id = 1 →
        bb.idx_start = ba.idx_end) :=
  ⟨by decide, by decide⟩

/-- Witness for `pickContSegmentsInner_contiguous`: on an abutting
two-beat table the returned segment `[0, 1]` satisfies the contiguity
chain. -/
theorem pickContSegmentsInner_contiguous_witness :
    ([(0 : ℤ), 1].Chain' fun a b =>
      ∀ ba ∈ [(⟨0, 0, 10, 0, 0, false, false, false⟩ : Beat),
          ⟨1, 10, 20, 0, 0, false, false, false⟩], ba.id = a →
        ∀ bb ∈ [(⟨0, 0, 10, 0, 0, false, false, false⟩ : Beat),
          ⟨1, 10, 20, 0, 0, false, false, false⟩], bb.id = b →
        bb.idx_start = ba.idx_end) :=
  (pickContSegmentsInner_contiguous (fun _ => 0) 0 2
    [⟨0, 0, 10, 0, 0, false, false, false⟩, ⟨1, 10, 20, 0, 0, false, false, false⟩]
    1 2 10 [[0, 1]] 1 (by decide) (by decide) (by decide) [0, 1] (by decide)).2

/-! ### C9: parallel beat-id / segment-id lists -/

theorem segIdsFrom_length : ∀ (segs : List (List ℤ)) (k : ℕ),
    (segIdsFrom k segs).length = segs.flatten.length := by
  intro segs
  induction segs with
  | nil => intro k; rfl
  | cons s rest ih =>
      intro k
      simp [segIdsFrom, ih]

theorem segIdsFrom_ge : ∀ (segs : List (List ℤ)) (k j : ℕ),
    j ∈ segIdsFrom k segs → k ≤ j := by
  intro segs
  induction segs with
  | nil => intro k j h; cases h
  | cons s rest ih =>
      intro k j h
      rw [segIdsFrom, List.mem_append] at h
      rcases h with h | h
      · exact le_of_eq (List.eq_of_mem_replicate h).symm
      · exact Nat.le_of_succ_le (ih (k + 1) j h)

theorem segIdsFrom_sorted : ∀ (segs : List (List ℤ)) (k : ℕ),
    (segIdsFrom k segs).Sorted (· ≤ ·) := by
  intro segs
  induction segs with
  | nil => intro k; exact List.sorted_nil
  | cons s rest ih =>
      intro k
      rw [segIdsFrom]
      refine List.pairwise_append.mpr ⟨?_, ih (k + 1), ?_⟩
      · exact List.pairwise_replicate.mpr (Or.inr le_rfl)
      · intro a ha b hb
        rw [List.eq_of_mem_replicate ha]
        exact Nat.le_of_succ_le (segIdsFrom_ge rest (k + 1) b hb)

theorem segIdsFrom_count : ∀ (segs : List (List ℤ)) (k p : ℕ),
    p < segs.length →
    (segIdsFrom k segs).count (k + p) = (segs.getD p []).length := by
  intro segs
  induction segs with
  | nil => intro k p hp; exact absurd hp (Nat.not_lt_zero p)
  | cons s rest ih =>
      intro k p hp
      rw [segIdsFrom, List.count_append]
      cases p with
      | zero =>
          have h0 : (segIdsFrom (k + 1) rest).count (k + 0) = 0 := by
            rw [List.count_eq_zero]
            intro hmem
            have := segIdsFrom_ge rest (k + 1) (k + 0) hmem
            omega
          rw [h0, List.count_replicate, if_pos (by simp)]
          simp
      | succ q =>
          rw [List.count_replicate, if_neg (by simp only [beq_iff_eq]; omega)]
          have hshift : k + (q + 1) = (k + 1) + q := by omega
          rw [hshift, ih (k + 1) q (by simpa using Nat.lt_of_succ_lt_succ hp)]
          simp

theorem segIdsFrom_mem : ∀ (segs : List (List ℤ)) (k j : ℕ),
    j ∈ segIdsFrom k segs ↔
      ∃ p, p < segs.length ∧ j = k + p ∧ segs.getD p [] ≠ [] := by
  intro segs
  induction segs with
  | nil => intro k j; simp [segIdsFrom]
  | cons s rest ih =>
      intro k j
      rw [segIdsFrom, List.mem_append, List.mem_replicate, ih]
      constructor
      · rintro (⟨hn, hj⟩ | ⟨p, hp, hj, hne⟩)
        · refine ⟨0, Nat.succ_pos _, by omega, ?_⟩
          simpa using fun hs => hn (by rw [hs]; rfl)
        · exact ⟨p + 1, by simp only [List.length_cons]; omega, by omega,
            by simpa using hne⟩
      · rintro ⟨p, hp, hj, hne⟩
        cases p with
        | zero =>
            left
            refine ⟨fun hs => ?_, by omega⟩
            rw [List.getD_cons_zero] at hne
            rw [List.length_eq_zero.mp hs] at hne
            exact hne rfl
        | succ q =>
            right
            exact ⟨q, by simp only [List.length_cons] at hp; omega, by omega,
              by simpa using hne⟩

theorem segIds_complete (segs : List (List ℤ)) (hne : ∀ s ∈ segs, s ≠ []) :
    ∀ j, j ∈ segIdsFrom 0 segs ↔ j < segs.length := by
  intro j
  rw [segIdsFrom_mem]
  constructor
  · rintro ⟨p, hp, hj, _⟩; omega
  · intro hj
    refine ⟨j, hj, by omega, ?_⟩
    apply hne
    rw [List.getD_eq_getElem _ _ hj]
    exact List.getElem_mem _

theorem pickContInner_ne (g : ℕ → ℕ) (minL maxL : ℕ) (hmin : 1 ≤ minL) :
    ∀ (fuel i : ℕ) (n : ℤ) (avail acc res : List (List ℤ)) (i2 : ℕ),
      (∀ s ∈ avail, s ≠ []) → (∀ s ∈ acc, s ≠ []) →
      pickContInner g minL maxL fuel i n avail acc = some (res, i2) →
      ∀ s ∈ res, s ≠ [] := by
  intro fuel
  induction fuel with
  | zero =>
      intro i n avail acc res i2 _ _ h
      simp [pickContInner] at h
  | succ f ih =>
      intro i n avail acc res i2 hav hacc h
      simp only [pickContInner] at h
      split at h
      · rw [Option.some.injEq, Prod.mk.injEq] at h
        intro s hs
        rw [← h.1, List.mem_reverse] at hs
        exact hacc s hs
      · split at h
        · rw [Option.some.injEq, Prod.mk.injEq] at h
          intro s hs
          rw [← h.1, List.mem_reverse] at hs
          exact hacc s hs
        · rename_i hn0 hlen0
          have hk : g i % avail.length < avail.length :=
            Nat.mod_lt _ (Nat.pos_of_ne_zero hlen0)
          have hsubmem : avail.getD (g i % avail.length) [] ∈ avail := by
            rw [List.getD_eq_getElem _ _ hk]
            exact List.getElem_mem _
          have hsublen : 1 ≤ (avail.getD (g i % avail.length) []).length :=
            List.length_pos.mpr (hav _ hsubmem)
          have havail' : ∀ s ∈ avail.eraseIdx (g i % avail.length), s ≠ [] :=
            fun s hs => hav s ((avail.eraseIdx_sublist _).subset hs)
          split at h
          · refine ih (i + 1) _ _ _ res i2 havail' ?_ h
            intro s hs
            rcases List.mem_cons.mp hs with hs | hs
            · rw [hs]
              refine List.ne_nil_of_length_pos ?_
              rw [List.length_take]
              have hn1 : 1 ≤ n.toNat := by omega
              omega
            · exact hacc s hs
          · split at h
            · exact ih (i + 2) _ _ _ res i2 havail' hacc h
            · rename_i hbig hhi
              set L := (avail.getD (g i % avail.length) []).length with hL
              set W := minL + g (i + 1) % (min maxL (L - minL) - minL) with hW
              have hmodW : g (i + 1) % (min maxL (L - minL) - minL) <
                  min maxL (L - minL) - minL :=
                Nat.mod_lt _ (by omega)
              have hWbounds : 1 ≤ W ∧ W < L := by omega
              have hidx : (0 :: (L - W) :: pyRange minL (L - W - minL)).getD
                  (g (i + 2) % (0 :: (L - W) :: pyRange minL (L - W - minL)).length)
                  0 < L := by
                have hclen : g (i + 2) %
                    (0 :: (L - W) :: pyRange minL (L - W - minL)).length <
                    (0 :: (L - W) :: pyRange minL (L - W - minL)).length :=
                  Nat.mod_lt _ (Nat.succ_pos _)
                have hmem : (0 :: (L - W) :: pyRange minL (L - W - minL)).getD
                    (g (i + 2) %
                      (0 :: (L - W) :: pyRange minL (L - W - minL)).length) 0 ∈
                    0 :: (L - W) :: pyRange minL (L - W - minL) := by
                  rw [List.getD_eq_getElem _ _ hclen]
                  exact List.getElem_mem _
                generalize hgen : (0 :: (L - W) :: pyRange minL (L - W - minL)).getD
                  (g (i + 2) %
                    (0 :: (L - W) :: pyRange minL (L - W - minL)).length) 0 = e
                  at hmem ⊢
                rcases List.mem_cons.mp hmem with he | hmem
                · omega
                rcases List.mem_cons.mp hmem with he | hmem
                · omega
                · simp only [pyRange] at hmem
                  split at hmem
                  · cases hmem
                  · have := (List.mem_range'_1.mp hmem).2
                    omega
              refine ih (i + 3) _ _ _ res i2 ?_ ?_ h
              · intro s hs
                rcases List.mem_append.mp hs with hs | hs
                · rcases List.mem_append.mp hs with hs | hs
                  · exact havail' s hs
                  · split at hs
                    · rename_i hcut
                      rw [List.mem_singleton.mp hs]
                      refine List.ne_nil_of_length_pos ?_
                      have := List.length_take_le
                        ((0 :: (L - W) :: pyRange minL (L - W - minL)).getD
                          (g (i + 2) % (0 :: (L - W) ::
                            pyRange minL (L - W - minL)).length) 0)
                        (avail.getD (g i % avail.length) [])
                      omega
                    · exact absurd hs (List.not_mem_nil s)
                · split at hs
                  · rename_i hcut
                    rw [List.mem_singleton.mp hs]
                    refine List.ne_nil_of_length_pos ?_
                    omega
                  · exact absurd hs (List.not_mem_nil s)
              · intro s hs
                rcases List.mem_cons.mp hs with hs | hs
                · rw [hs]
                  refine List.ne_nil_of_length_pos ?_
                  rw [List.length_take, List.length_drop]
                  omega
                · exact hacc s hs

theorem pickContSegmentsInner_ne (g : ℕ → ℕ) (i : ℕ) (n : ℤ) (tbl : List Beat)
    (minL maxL fuel : ℕ) (hmin : 1 ≤ minL) (segs : List (List ℤ)) (i2 : ℕ)
    (h : pickContSegmentsInner g i n tbl minL maxL fuel = some (segs, i2)) :
    ∀ s ∈ segs, s ≠ [] := by
  simp only [pickContSegmentsInner] at h
  refine pickContInner_ne g minL maxL hmin fuel i n _ [] segs i2 ?_
    (by intro s hs; cases hs) h
  intro s hs
  rw [List.mem_flatMap] at hs
  obtain ⟨rec, _, hsf⟩ := hs
  rw [List.mem_filter] at hsf
  have hlen : minL ≤ s.length := by simpa using hsf.2
  exact List.ne_nil_of_length_pos (by omega)

theorem pickContCollected_ne (g : ℕ → ℕ) (i : ℕ) (n : ℤ) (tbl : List Beat)
    (tp : TargetProbs) (minL maxL fuel : ℕ) (hmin : 1 ≤ minL)
    (segs : List (List ℤ)) (i2 : ℕ)
    (h : pickContCollected g i n tbl tp minL maxL fuel = some (segs, i2)) :
    ∀ s ∈ segs, s ≠ [] := by
  rw [pickContCollected.eq_def] at h
  split at h
  · exact absurd h (by simp)
  · rename_i segs1 i1' heq
    rw [Option.some.injEq] at h
    have hsegs : segs = shuffleAux g segs1.length segs1 i1' := by
      have hfst := congrArg Prod.fst h
      simp only [shuffleList] at hfst
      exact hfst.symm
    intro s hs
    rw [hsegs] at hs
    have hperm := shuffleAux_perm g segs1.length segs1 i1' le_rfl
    exact pickContSegmentsInner_ne g i n tbl minL maxL fuel hmin segs1 i1' heq
      s (hperm.mem_iff.mp hs)

theorem flattenSegments_parallel (segs0 : List (List ℤ)) (bIds : List ℤ)
    (sIds : List ℕ) (hb : bIds = segs0.flatten)
    (hside : sIds = segIdsFrom 0 segs0) :
    bIds.length = sIds.length ∧ sIds.Sorted (· ≤ ·) ∧
    ∀ p, p < segs0.length → sIds.count p = (segs0.getD p []).length := by
  subst hb hside
  refine ⟨(segIdsFrom_length segs0 0).symm, segIdsFrom_sorted segs0 0, ?_⟩
  intro p hp
  have hc := segIdsFrom_count segs0 0 p hp
  simpa using hc

theorem pickContSameclassLoop_ne (g : ℕ → ℕ) (tbl : List Beat)
    (minL maxL fuel : ℕ) (hmin : 1 ≤ minL) :
    ∀ (counts : List (ℕ × ℤ)) (i : ℕ) (segs : List (List ℤ)) (i2 : ℕ),
      pickContSameclassLoop g tbl minL maxL fuel i counts = some (segs, i2) →
      ∀ s ∈ segs, s ≠ [] := by
  intro counts
  induction counts with
  | nil =>
      intro i segs i2 h
      simp only [pickContSameclassLoop, Option.some.injEq, Prod.mk.injEq] at h
      intro s hs
      rw [← h.1] at hs
      cases hs
  | cons p rest ih =>
      obtain ⟨tgt, cnt⟩ := p
      intro i segs i2 h
      simp only [pickContSameclassLoop, Option.bind_eq_bind] at h
      rcases hinner : pickContSegmentsInner g i cnt
          (tbl.filter fun b => b.target = tgt) minL maxL fuel with _ | ⟨segs1, i1⟩ <;>
        rw [hinner] at h
      · simp at h
      · simp only [Option.some_bind] at h
        try dsimp only at h
        rcases hloop : pickContSameclassLoop g tbl minL maxL fuel i1 rest
            with _ | ⟨later, i3⟩ <;> rw [hloop] at h
        · simp at h
        · simp only [Option.some_bind] at h
          try dsimp only at h
          simp only [Option.pure_def, Option.some.injEq, Prod.mk.injEq] at h
          intro s hs
          rw [← h.1] at hs
          rcases List.mem_append.mp hs with hs | hs
          · exact pickContSegmentsInner_ne g i cnt _ minL maxL fuel hmin
              segs1 i1 hinner s hs
          · exact ih i1 later i3 hloop s hs

theorem pickContSameclassCollected_ne (g : ℕ → ℕ) (i : ℕ) (n : ℤ)
    (tbl : List Beat) (tp : TargetProbs) (minL maxL fuel : ℕ) (hmin : 1 ≤ minL)
    (segs : List (List ℤ)) (i2 : ℕ)
    (h : pickContSameclassCollected g i n tbl tp minL maxL fuel = some (segs, i2)) :
    ∀ s ∈ segs, s ≠ [] := by
  simp only [pickContSameclassCollected, Option.bind_eq_bind] at h
  rcases hdbc : determineBeatCounts g i n tbl tp false with _ | ⟨counts, i1⟩ <;>
    rw [hdbc] at h
  · simp at h
  · simp only [Option.some_bind] at h
    try dsimp only at h
    rcases hloop : pickContSameclassLoop g tbl minL maxL fuel i1 counts
        with _ | ⟨coll, i3⟩ <;> rw [hloop] at h
    · simp at h
    · simp only [Option.some_bind] at h
      try dsimp only at h
      simp only [Option.pure_def, Option.some.injEq] at h
      have hsegs : segs = shuffleAux g coll.length coll i3 := by
        have hfst := congrArg Prod.fst h
        simp only [shuffleList] at hfst
        exact hfst.symm
      intro s hs
      rw [hsegs] at hs
      have hperm := shuffleAux_perm g coll.length coll i3 le_rfl
      exact pickContSameclassLoop_ne g tbl minL maxL fuel hmin counts i1 coll i3
        hloop s (hperm.mem_iff.mp hs)

theorem pickContSegments_len (g : ℕ → ℕ) (i : ℕ) (n : ℤ) (tbl : List Beat)
    (tp : TargetProbs) (minL maxL fuel : ℕ) (nb : List ℤ) (ns : List ℕ)
    (i1 : ℕ)
    (h : pickContSegments g i n tbl tp minL maxL fuel = some ((nb, ns), i1)) :
    nb.length = ns.length := by
  simp only [pickContSegments, Option.map_eq_some'] at h
  obtain ⟨⟨segs0, j⟩, _, hf⟩ := h
  have h1 := congrArg (fun x => x.1.1) hf
  have h2 := congrArg (fun x => x.1.2) hf
  simp only [flattenSegments] at h1 h2
  rw [← h1, ← h2, segIdsFrom_length]

theorem zipFilterNe : ∀ (ns : List ℕ) (nb : List ℤ) (j : ℕ),
    nb.length = ns.length → j ∈ ns →
    ((nb.zip ns).filter fun p => p.2 = j).map Prod.fst ≠ [] := by
  intro ns
  induction ns with
  | nil => intro nb j _ hj; cases hj
  | cons y t ih =>
      intro nb j hlen hj
      cases nb with
      | nil => simp at hlen
      | cons x xs =>
          rw [List.zip_cons_cons, List.filter_cons]
          by_cases hy : y = j
          · rw [if_pos (by simp [hy])]
            simp
          · rw [if_neg (by simp [hy])]
            have hj' : j ∈ t := by
              rcases List.mem_cons.mp hj with hcase | hcase
              · exact absurd hcase.symm hy
              · exact hcase
            exact ih xs j (by simpa using hlen) hj'

theorem acceptSegsLoop_ne (tbl : List Beat) (mA : ℤ) (nb : List ℤ)
    (ns : List ℕ) (hlen : nb.length = ns.length) :
    ∀ (segList : List ℕ) (missing : List (ℕ × ℤ)) (remaining : List Beat)
      (collected : List (List ℤ)) (m2 : List (ℕ × ℤ)) (r2 : List Beat)
      (c2 : List (List ℤ)),
      (∀ j ∈ segList, j ∈ ns) → (∀ s ∈ collected, s ≠ []) →
      acceptSegsLoop tbl mA nb ns segList missing remaining collected =
        some (m2, r2, c2) →
      ∀ s ∈ c2, s ≠ [] := by
  intro segList
  induction segList with
  | nil =>
      intro missing remaining collected m2 r2 c2 _ hc h
      simp only [acceptSegsLoop, Option.some.injEq, Prod.mk.injEq] at h
      intro s hs
      rw [← h.2.2] at hs
      exact hc s hs
  | cons iSeg rest ih =>
      intro missing remaining collected m2 r2 c2 hseg hc h
      simp only [acceptSegsLoop] at h
      split at h
      · exact absurd h (by simp)
      · rename_i annotSeg hmapM
        split at h
        · split at h
          · exact absurd h (by simp)
          · rename_i stillMissing hany
            split at h
            · split at h
              · exact absurd h (by simp)
              · rename_i missing' hdec
                refine ih _ _ _ m2 r2 c2
                  (fun j hj => hseg j (List.mem_cons_of_mem _ hj)) ?_ h
                intro s hs
                rcases List.mem_append.mp hs with hs | hs
                · exact hc s hs
                · rw [List.mem_singleton.mp hs]
                  exact zipFilterNe ns nb iSeg hlen
                    (hseg iSeg (List.mem_cons_self _ _))
            · exact ih _ _ _ m2 r2 c2
                (fun j hj => hseg j (List.mem_cons_of_mem _ hj)) hc h
        · exact ih _ _ _ m2 r2 c2
            (fun j hj => hseg j (List.mem_cons_of_mem _ hj)) hc h

theorem pickNewStyleLoop_ne (g : ℕ → ℕ) (tbl : List Beat) (mA : ℤ)
    (minL maxL innerFuel : ℕ) :
    ∀ (fuel i : ℕ) (missing : List (ℕ × ℤ)) (remaining : List Beat)
      (collected res : List (List ℤ)) (i2 : ℕ),
      (∀ s ∈ collected, s ≠ []) →
      pickNewStyleLoop g tbl mA minL maxL innerFuel fuel i missing remaining
        collected = some (res, i2) →
      ∀ s ∈ res, s ≠ [] := by
  intro fuel
  induction fuel with
  | zero =>
      intro i missing remaining collected res i2 _ h
      simp [pickNewStyleLoop] at h
  | succ f ih =>
      intro i missing remaining collected res i2 hc h
      simp only [pickNewStyleLoop] at h
      split at h
      · rw [Option.some.injEq, Prod.mk.injEq] at h
        intro s hs
        rw [← h.1] at hs
        exact hc s hs
      · split at h
        · exact absurd h (by simp)
        · rename_i nb ns i1 hps
          split at h
          · exact absurd h (by simp)
          · rename_i m2 r2 c2 hacc
            refine ih i1 m2 r2 c2 res i2 ?_ h
            have hl := pickContSegments_len g i _ _ .nullProbs minL maxL
              innerFuel nb ns i1 hps
            exact acceptSegsLoop_ne tbl mA nb ns hl (sortedUnique ns)
              missing _ collected m2 r2 c2
              (fun j hj => (sortedUnique_mem ns j).mp hj) hc hacc

theorem pickNewStyleCollected_ne (g : ℕ → ℕ) (i : ℕ) (n : ℤ) (tbl : List Beat)
    (mA : ℤ) (tp : TargetProbs) (minL maxL fuel : ℕ) (segs : List (List ℤ))
    (i2 : ℕ)
    (h : pickNewStyleCollected g i n tbl mA tp minL maxL fuel = some (segs, i2)) :
    ∀ s ∈ segs, s ≠ [] := by
  cases tp with
  | nullProbs => simp [pickNewStyleCollected] at h
  | uniform => simp [pickNewStyleCollected] at h
  | probDict l =>
      simp only [pickNewStyleCollected] at h
      split at h
      · exact absurd h (by simp)
      · split at h
        · exact absurd h (by simp)
        · rename_i coll i1 hloop
          rw [Option.some.injEq] at h
          have hsegs : segs = shuffleAux g coll.length coll i1 := by
            have hfst := congrArg Prod.fst h
            simp only [shuffleList] at hfst
            exact hfst.symm
          intro s hs
          rw [hsegs] at hs
          have hperm := shuffleAux_perm g coll.length coll i1 le_rfl
          exact pickNewStyleLoop_ne g tbl mA minL maxL fuel fuel i _ tbl []
            coll i1 (by intro s' hs'; cases hs') hloop s (hperm.mem_iff.mp hs)

theorem flattenPair_eq (segs0 : List (List ℤ)) (j : ℕ) (bIds : List ℤ)
    (sIds : List ℕ) (i2 : ℕ)
    (h : ((flattenSegments segs0, j) : (List ℤ × List ℕ) × ℕ) =
      ((bIds, sIds), i2)) :
    bIds = segs0.flatten ∧ sIds = segIdsFrom 0 segs0 ∧ j = i2 := by
  have h1 := congrArg (fun x => x.1.1) h
  have h2 := congrArg (fun x => x.1.2) h
  have h3 := congrArg (fun x => x.2) h
  simp only [flattenSegments] at h1 h2 h3
  exact ⟨h1.symm, h2.symm, h3⟩

/-- C9 (amended): every segment-producing picker returns, on success, the
flattening of its collected segment list together with a parallel
segment-id list of the same length; the segment ids are non-decreasing
(consecutive blocks) and the block of position `p` has exactly as many
entries as segment `p` has beats.  For the three continuous pickers the
ids appearing are moreover exactly `0..k-1` for the `k` collected
segments whenever `min_len_segment ≥ 1` (every collected segment is
non-empty).  For `_pick_category_segments` that last part FAILS: `np.split`
pads with empty segments when a class's drawn beats fall short of the
planned lengths, and the ids of the empty segments never appear — see the
counterexample. -/
theorem segmentPickers_parallel_ids :
    (∀ (g : ℕ → ℕ) (i : ℕ) (n : ℤ) (tbl : List Beat) (tp : TargetProbs)
        (minL maxL fuel : ℕ) (bIds : List ℤ) (sIds : List ℕ) (i2 : ℕ),
      pickContSegments g i n tbl tp minL maxL fuel = some ((bIds, sIds), i2) →
      ∃ segs : List (List ℤ), bIds = segs.flatten ∧ sIds = segIdsFrom 0 segs ∧
        bIds.length = sIds.length ∧ sIds.Sorted (· ≤ ·) ∧
        (∀ p, p < segs.length → sIds.count p = (segs.getD p []).length) ∧
        (1 ≤ minL → ∀ j, j ∈ sIds ↔ j < segs.length)) ∧
    (∀ (g : ℕ → ℕ) (i : ℕ) (n : ℤ) (tbl : List Beat) (tp : TargetProbs)
        (minL maxL fuel : ℕ) (bIds : List ℤ) (sIds : List ℕ) (i2 : ℕ),
      pickContSameclassSegments g i n tbl tp minL maxL fuel =
        some ((bIds, sIds), i2) →
      ∃ segs : List (List ℤ), bIds = segs.flatten ∧ sIds = segIdsFrom 0 segs ∧
        bIds.length = sIds.length ∧ sIds.Sorted (· ≤ ·) ∧
        (∀ p, p < segs.length → sIds.count p = (segs.getD p []).length) ∧
        (1 ≤ minL → ∀ j, j ∈ sIds ↔ j < segs.length)) ∧
    (∀ (g : ℕ → ℕ) (i : ℕ) (n : ℤ) (tbl : List Beat) (mA : ℤ)
        (tp : TargetProbs) (minL maxL fuel : ℕ) (bIds : List ℤ)
        (sIds : List ℕ) (i2 : ℕ),
      pickNewStyleSegments g i n tbl mA tp minL maxL fuel =
        some ((bIds, sIds), i2) →
      ∃ segs : List (List ℤ), bIds = segs.flatten ∧ sIds = segIdsFrom 0 segs ∧
        bIds.length = sIds.length ∧ sIds.Sorted (· ≤ ·) ∧
        (∀ p, p < segs.length → sIds.count p = (segs.getD p []).length) ∧
        (∀ j, j ∈ sIds ↔ j < segs.length)) ∧
    (∀ (g : ℕ → ℕ) (i : ℕ) (n : ℤ) (tbl : List Beat) (tp : TargetProbs)
        (ms : MatchSegments) (minL maxL : ℕ) (bIds : List ℤ) (sIds : List ℕ)
        (i2 : ℕ),
      pickCategorySegments g i n tbl tp ms minL maxL =
        Except.ok ((bIds, sIds), i2) →
      ∃ segs : List (List ℤ), bIds = segs.flatten ∧ sIds = segIdsFrom 0 segs ∧
        bIds.length = sIds.length ∧ sIds.Sorted (· ≤ ·) ∧
        ∀ p, p < segs.length → sIds.count p = (segs.getD p []).length) := by
  refine ⟨?_, ?_, ?_, ?_⟩
  · intro g i n tbl tp minL maxL fuel bIds sIds i2 h
    simp only [pickContSegments, Option.map_eq_some'] at h
    obtain ⟨⟨segs0, j⟩, hcol, hf⟩ := h
    obtain ⟨hb, hsi, _⟩ := flattenPair_eq segs0 j bIds sIds i2 hf
    obtain ⟨hlen, hsort, hcount⟩ := flattenSegments_parallel segs0 bIds sIds hb hsi
    refine ⟨segs0, hb, hsi, hlen, hsort, hcount, ?_⟩
    intro hmin j'
    rw [hsi]
    exact segIds_complete segs0
      (pickContCollected_ne g i n tbl tp minL maxL fuel hmin segs0 j hcol) j'
  · intro g i n tbl tp minL maxL fuel bIds sIds i2 h
    simp only [pickContSameclassSegments, Option.map_eq_some'] at h
    obtain ⟨⟨segs0, j⟩, hcol, hf⟩ := h
    obtain ⟨hb, hsi, _⟩ := flattenPair_eq segs0 j bIds sIds i2 hf
    obtain ⟨hlen, hsort, hcount⟩ := flattenSegments_parallel segs0 bIds sIds hb hsi
    refine ⟨segs0, hb, hsi, hlen, hsort, hcount, ?_⟩
    intro hmin j'
    rw [hsi]
    exact segIds_complete segs0
      (pickContSameclassCollected_ne g i n tbl tp minL maxL fuel hmin segs0 j
        hcol) j'
  · intro g i n tbl mA tp minL maxL fuel bIds sIds i2 h
    simp only [pickNewStyleSegments, Option.map_eq_some'] at h
    obtain ⟨⟨segs0, j⟩, hcol, hf⟩ := h
    obtain ⟨hb, hsi, _⟩ := flattenPair_eq segs0 j bIds sIds i2 hf
    obtain ⟨hlen, hsort, hcount⟩ := flattenSegments_parallel segs0 bIds sIds hb hsi
    refine ⟨segs0, hb, hsi, hlen, hsort, hcount, ?_⟩
    intro j'
    rw [hsi]
    exact segIds_complete segs0
      (pickNewStyleCollected_ne g i n tbl mA tp minL maxL fuel segs0 j hcol) j'
  · intro g i n tbl tp ms minL maxL bIds sIds i2 h
    simp only [pickCategorySegments] at h
    rcases hcol : pickCategoryCollected g i n tbl tp ms minL maxL
        with e | ⟨segs0, j⟩ <;> rw [hcol] at h
    · simp [Except.map] at h
    · simp only [Except.map] at h
      rw [Except.ok.injEq] at h
      obtain ⟨hb, hsi, _⟩ := flattenPair_eq segs0 j bIds sIds i2 h
      obtain ⟨hlen, hsort, hcount⟩ := flattenSegments_parallel segs0 bIds sIds
        hb hsi
      exact ⟨segs0, hb, hsi, hlen, hsort, hcount⟩

/-- C9 counterexample to the "ids are exactly 0..k-1" part for
`_pick_category_segments`: two beats of class 1, five beats requested,
planned lengths `[2, 2, 2]` — `np.split` produces three segments, two of
them empty, and segment ids 1 and 2 never appear in the id list. -/
theorem pickCategorySegments_missing_ids :
    pickCategoryCollected (fun _ => 0) 0 5
      [⟨0, 0, 1, 1, 0, false, false, false⟩, ⟨1, 1, 2, 1, 0, false, false, false⟩]
      TargetProbs.nullProbs ⟨true, false, false⟩ 2 3 =
      Except.ok ([[0, 1], [], []], 8) ∧
    pickCategorySegments (fun _ => 0) 0 5
      [⟨0, 0, 1, 1, 0, false, false, false⟩, ⟨1, 1, 2, 1, 0, false, false, false⟩]
      TargetProbs.nullProbs ⟨true, false, false⟩ 2 3 =
      Except.ok (([0, 1], [0, 0]), 8) ∧
    ¬ ((1 : ℕ) ∈ [0, 0]) :=
  ⟨rfl, rfl, by decide⟩
